import Mathlib

/-! A fixed-capacity ring buffer of bytes (`circular_buffer.c`)

Shallow embedding of the C ring buffer.  Pointers into the backing allocation are
offsets (natural numbers) from `data_begin`; the allocation itself is a list of
bytes.  Pointer differences are integers (`ptrdiff_t`) and the copy length is the
conversion of such a difference to `size_t`.  Every `memcpy` is bounds-checked:
a copy that leaves its source or destination block makes the operation return
`none`.
-/

namespace CircularBuffer

/-- An `unsigned char`. -/
abbrev byte := Fin 256

/-- Width in bits of `size_t`. -/
def SIZE_WIDTH : Nat := 64

/-- The macro `MIN(a, b)`, instantiated in the source at pointer differences. -/
def MIN (a b : Int) : Int := if a < b then a else b

/-- Conversion of a pointer difference to `size_t`, as happens when the result of
`MIN` is assigned to `copy_byte_count`. -/
def to_size_t (d : Int) : Nat := (d % ((2 ^ SIZE_WIDTH : Nat) : Int)).toNat

/-- The struct `circular_buffer_t`.  `data_begin` is the block returned by `malloc`;
`data_end`, `head` and `tail` are offsets from its first byte. -/
structure circular_buffer_t where
  is_empty : Bool
  data_begin : List byte
  data_end : Nat
  head : Nat
  tail : Nat
deriving DecidableEq, Repr

/-- Checked `memcpy(dest + d, src + s, n)`: `none` when the copy would leave either
block, otherwise the destination block with bytes `d .. d+n-1` replaced. -/
def memcpy (dest : List byte) (d : Nat) (src : List byte) (s : Nat) (n : Nat) :
    Option (List byte) :=
  if d + n ≤ dest.length ∧ s + n ≤ src.length then
    some (dest.take d ++ ((src.drop s).take n ++ dest.drop (d + n)))
  else none

/-- `circular_buffer_construct`.  The allocation is assumed to succeed; `fresh` gives
the indeterminate bytes of the new block. -/
def circular_buffer_construct (max_capacity : Nat) (fresh : Nat → byte) : circular_buffer_t :=
  { data_begin := (List.range max_capacity).map fresh
    data_end := max_capacity
    head := 0
    tail := 0
    is_empty := true }

/-- `circular_buffer_is_empty`. -/
def circular_buffer_is_empty (buffer : circular_buffer_t) : Bool :=
  buffer.is_empty

/-- `circular_buffer_is_full`. -/
def circular_buffer_is_full (buffer : circular_buffer_t) : Bool :=
  !circular_buffer_is_empty buffer && decide (buffer.head = buffer.tail)

/-- Lines 72-76 of `circular_buffer_insert_range`: the copy up to `head`, reached
either directly (`tail < head`) or by falling through after the first copy.
`data_in_iter` is the offset of the input cursor from `data_in_begin`. -/
def insert_range_second (buffer : circular_buffer_t) (data_in : List byte)
    (data_in_iter : Nat) : Option (circular_buffer_t × Nat) :=
  let copy_byte_count := to_size_t
    (MIN ((buffer.head : Int) - buffer.tail) ((data_in.length : Int) - data_in_iter))
  match memcpy buffer.data_begin buffer.tail data_in data_in_iter copy_byte_count with
  | none => none
  | some block =>
    some ({ buffer with data_begin := block, tail := buffer.tail + copy_byte_count },
          data_in_iter + copy_byte_count)

/-- `circular_buffer_insert_range`, on the input range `data_in`.  The result is the
new buffer and the offset of the returned pointer from `data_in_begin`, i.e. the
number of bytes inserted. -/
def circular_buffer_insert_range (buffer : circular_buffer_t) (data_in : List byte) :
    Option (circular_buffer_t × Nat) :=
  let data_in_iter := 0
  if data_in_iter ≥ data_in.length ∨ circular_buffer_is_full buffer = true then
    some (buffer, data_in_iter)
  else
    let buffer := { buffer with is_empty := false }
    if buffer.tail ≥ buffer.head then
      let copy_byte_count := to_size_t
        (MIN ((buffer.data_end : Int) - buffer.tail) ((data_in.length : Int) - data_in_iter))
      match memcpy buffer.data_begin buffer.tail data_in data_in_iter copy_byte_count with
      | none => none
      | some block =>
        let tail := buffer.tail + copy_byte_count
        let tail := if tail = buffer.data_end then 0 else tail
        let buffer := { buffer with data_begin := block, tail := tail }
        let data_in_iter := data_in_iter + copy_byte_count
        if data_in_iter = data_in.length then some (buffer, data_in_iter)
        else insert_range_second buffer data_in data_in_iter
    else insert_range_second buffer data_in data_in_iter

/-- `circular_buffer_insert_value`: the one-byte range `&value .. &value + 1` is
inserted and the returned pointer is compared with `&value + 1`. -/
def circular_buffer_insert_value (buffer : circular_buffer_t) (value : byte) :
    Option (circular_buffer_t × Bool) :=
  match circular_buffer_insert_range buffer [value] with
  | none => none
  | some (buffer, data_in_iter) => some (buffer, decide (data_in_iter = 1))

/-- Lines 115-123 of `circular_buffer_extract_range`: the copy up to `tail`.
`data_out_iter` is the offset of the output cursor from `data_out_begin`. -/
def extract_range_second (buffer : circular_buffer_t) (data_out : List byte)
    (data_out_iter : Nat) : Option (circular_buffer_t × List byte × Nat) :=
  let copy_byte_count := to_size_t
    (MIN ((buffer.tail : Int) - buffer.head) ((data_out.length : Int) - data_out_iter))
  match memcpy data_out data_out_iter buffer.data_begin buffer.head copy_byte_count with
  | none => none
  | some out =>
    let head := buffer.head + copy_byte_count
    let buffer := { buffer with head := head }
    let buffer := if buffer.head = buffer.tail then { buffer with is_empty := true } else buffer
    some (buffer, out, data_out_iter + copy_byte_count)

/-- `circular_buffer_extract_range`, on the output range `data_out` (its bytes before
the call).  The result is the new buffer, the output range after the call and the
offset of the returned pointer from `data_out_begin`, i.e. the number of bytes
extracted. -/
def circular_buffer_extract_range (buffer : circular_buffer_t) (data_out : List byte) :
    Option (circular_buffer_t × List byte × Nat) :=
  let data_out_iter := 0
  if data_out_iter ≥ data_out.length ∨ circular_buffer_is_empty buffer = true then
    some (buffer, data_out, data_out_iter)
  else
    if buffer.head ≥ buffer.tail then
      let copy_byte_count := to_size_t
        (MIN ((buffer.data_end : Int) - buffer.head) ((data_out.length : Int) - data_out_iter))
      match memcpy data_out data_out_iter buffer.data_begin buffer.head copy_byte_count with
      | none => none
      | some out =>
        let head := buffer.head + copy_byte_count
        let head := if head = buffer.data_end then 0 else head
        let buffer := { buffer with head := head }
        let data_out_iter := data_out_iter + copy_byte_count
        let buffer := if buffer.head = buffer.tail then { buffer with is_empty := true } else buffer
        if data_out_iter = data_out.length then some (buffer, out, data_out_iter)
        else extract_range_second buffer out data_out_iter
    else extract_range_second buffer data_out data_out_iter

/-- `circular_buffer_extract_value`.  `value` is the indeterminate initial content of
the local variable the byte is extracted into. -/
def circular_buffer_extract_value (buffer : circular_buffer_t) (value : byte) :
    Option (circular_buffer_t × byte) :=
  match circular_buffer_extract_range buffer [value] with
  | none => none
  | some (buffer, out, _) =>
    match out with
    | [] => none
    | v :: _ => some (buffer, v)

/-! ## Specification-level definitions -/

/-- The bytes currently stored, oldest first: from `head` up to `tail` in wrap order. -/
def contents (buffer : circular_buffer_t) : List byte :=
  if buffer.is_empty = true then []
  else if buffer.head < buffer.tail then
    (buffer.data_begin.drop buffer.head).take (buffer.tail - buffer.head)
  else buffer.data_begin.drop buffer.head ++ buffer.data_begin.take buffer.tail

/-- Well-formedness of a buffer of capacity `C`, for `C ≥ 1`: the block has `C` bytes,
`data_end` is its physical end, both cursors are inside it, and an empty buffer has
`head = tail`. -/
structure WF (C : Nat) (buffer : circular_buffer_t) : Prop where
  block : buffer.data_begin.length = C
  data_end : buffer.data_end = C
  head : buffer.head < C
  tail : buffer.tail < C
  empty : buffer.is_empty = true → buffer.head = buffer.tail

/-- The states a caller can reach from `circular_buffer_construct(C)` through the four
mutating operations.  `C` is a `size_t`. -/
inductive Reachable (C : Nat) : circular_buffer_t → Prop
  | construct (hC : C < 2 ^ SIZE_WIDTH) (fresh : Nat → byte) :
      Reachable C (circular_buffer_construct C fresh)
  | insert_range {b b' : circular_buffer_t} {k : Nat} (s : List byte) :
      Reachable C b → circular_buffer_insert_range b s = some (b', k) → Reachable C b'
  | insert_value {b b' : circular_buffer_t} {r : Bool} (v : byte) :
      Reachable C b → circular_buffer_insert_value b v = some (b', r) → Reachable C b'
  | extract_range {b b' : circular_buffer_t} {out : List byte} {k : Nat} (dst : List byte) :
      Reachable C b → circular_buffer_extract_range b dst = some (b', out, k) → Reachable C b'
  | extract_value {b b' : circular_buffer_t} {r : byte} (v : byte) :
      Reachable C b → circular_buffer_extract_value b v = some (b', r) → Reachable C b'

/-- A call of one of the two range operations, with its argument. -/
inductive Op where
  | insert (source : List byte)
  | extract (destination : List byte)
deriving DecidableEq, Repr

/-- Runs a sequence of range calls.  The result is the final buffer, the concatenation
of the bytes accepted by the insert calls (the first `count` bytes of each source) and
the concatenation of the bytes delivered by the extract calls (the first `count` bytes
of each destination after the call). -/
def run : circular_buffer_t → List Op → Option (circular_buffer_t × List byte × List byte)
  | b, [] => some (b, [], [])
  | b, Op.insert s :: ops =>
    match circular_buffer_insert_range b s with
    | none => none
    | some (b', k) =>
      match run b' ops with
      | none => none
      | some (b2, accepted, extracted) => some (b2, s.take k ++ accepted, extracted)
  | b, Op.extract dst :: ops =>
    match circular_buffer_extract_range b dst with
    | none => none
    | some (b', out, k) =>
      match run b' ops with
      | none => none
      | some (b2, accepted, extracted) => some (b2, accepted, out.take k ++ extracted)

/-- All bytes offered to the insert calls of a sequence, in call order. -/
def inserted : List Op → List byte
  | [] => []
  | Op.insert s :: ops => s ++ inserted ops
  | Op.extract _ :: ops => inserted ops

/-- Starting with `n` bytes outstanding, every insert of the sequence fits in the free
space of a buffer of capacity `C` (an extract into `m` bytes removes `min m n`). -/
def fits (C : Nat) : Nat → List Op → Prop
  | _, [] => True
  | n, Op.insert s :: ops => n + s.length ≤ C ∧ fits C (n + s.length) ops
  | n, Op.extract dst :: ops => fits C (n - min dst.length n) ops

/-- A call sequence for capacity 3 whose second insert wraps past the physical end. -/
def example_ops : List Op :=
  [Op.insert [1, 2], Op.extract [9, 9], Op.insert [3, 4, 5], Op.extract [9, 9, 9, 9]]

/-- An empty buffer of capacity 5 whose cursors stand at offset 3. -/
def example_empty : circular_buffer_t := ⟨true, [1, 2, 3, 0, 0], 5, 3, 3⟩

/-- A buffer of capacity 5 holding the four bytes 4, 5, 6, 7, wrapped past the end. -/
def example_wrapped : circular_buffer_t := ⟨false, [6, 7, 3, 4, 5], 5, 3, 2⟩

/-- A full buffer of capacity 5 holding 4, 5, 6, 7, 8, with both cursors at offset 3. -/
def example_full : circular_buffer_t := ⟨false, [6, 7, 8, 4, 5], 5, 3, 3⟩

/-- Reachability with byte counts: `ReachableCount C b a d` holds when `b` is reached
from `circular_buffer_construct(C)` by calls whose insert operations accepted `a` bytes
in total and whose extract operations delivered `d` bytes in total.  A call of
`circular_buffer_insert_value` accepts one byte when it returns true, and a call of
`circular_buffer_extract_value` delivers what its inner `circular_buffer_extract_range`
call on the one-byte range returns. -/
inductive ReachableCount (C : Nat) : circular_buffer_t → Nat → Nat → Prop
  | construct (hC : C < 2 ^ SIZE_WIDTH) (fresh : Nat → byte) :
      ReachableCount C (circular_buffer_construct C fresh) 0 0
  | insert_range {b b' : circular_buffer_t} {a d k : Nat} (s : List byte) :
      ReachableCount C b a d → circular_buffer_insert_range b s = some (b', k) →
      ReachableCount C b' (a + k) d
  | insert_value {b b' : circular_buffer_t} {a d : Nat} {r : Bool} (v : byte) :
      ReachableCount C b a d → circular_buffer_insert_value b v = some (b', r) →
      ReachableCount C b' (a + (if r = true then 1 else 0)) d
  | extract_range {b b' : circular_buffer_t} {a d k : Nat} {out : List byte}
      (dst : List byte) :
      ReachableCount C b a d → circular_buffer_extract_range b dst = some (b', out, k) →
      ReachableCount C b' a (d + k)
  | extract_value {b b' : circular_buffer_t} {a d k : Nat} {r : byte} {out : List byte}
      (v : byte) :
      ReachableCount C b a d → circular_buffer_extract_value b v = some (b', r) →
      circular_buffer_extract_range b [v] = some (b', out, k) →
      ReachableCount C b' a (d + k)

/-- Slot `i` of the storage holds an unread byte: it lies between `head` and `tail` in
wrap order. -/
def occupied (buffer : circular_buffer_t) (i : Nat) : Prop :=
  if buffer.is_empty = true then False
  else if buffer.head < buffer.tail then buffer.head ≤ i ∧ i < buffer.tail
  else (buffer.head ≤ i ∧ i < buffer.data_end) ∨ i < buffer.tail

/-- Slot `i` of the storage is inside the block and holds no unread byte. -/
def free_slot (buffer : circular_buffer_t) (i : Nat) : Prop :=
  i < buffer.data_end ∧ ¬ occupied buffer i

/-- The second copy of `circular_buffer_insert_range` (see `insert_range_second`),
instrumented: besides the result it reports the `memcpy` it performs, as the offset
written from and the value of `MIN(...)` before its conversion to `size_t`. -/
def insert_range_second_log (buffer : circular_buffer_t) (data_in : List byte)
    (data_in_iter : Nat) : Option ((circular_buffer_t × Nat) × List (Nat × Int)) :=
  let length := MIN ((buffer.head : Int) - buffer.tail) ((data_in.length : Int) - data_in_iter)
  let copy_byte_count := to_size_t length
  match memcpy buffer.data_begin buffer.tail data_in data_in_iter copy_byte_count with
  | none => none
  | some block =>
    some (({ buffer with data_begin := block, tail := buffer.tail + copy_byte_count },
           data_in_iter + copy_byte_count), [(buffer.tail, length)])

/-- `circular_buffer_insert_range`, instrumented: besides the result it reports every
`memcpy` into the storage, in order, as the offset written from and the value of
`MIN(...)` before its conversion to `size_t`. -/
def circular_buffer_insert_range_log (buffer : circular_buffer_t) (data_in : List byte) :
    Option ((circular_buffer_t × Nat) × List (Nat × Int)) :=
  let data_in_iter := 0
  if data_in_iter ≥ data_in.length ∨ circular_buffer_is_full buffer = true then
    some ((buffer, data_in_iter), [])
  else
    let buffer := { buffer with is_empty := false }
    if buffer.tail ≥ buffer.head then
      let length := MIN ((buffer.data_end : Int) - buffer.tail)
        ((data_in.length : Int) - data_in_iter)
      let copy_byte_count := to_size_t length
      let first := (buffer.tail, length)
      match memcpy buffer.data_begin buffer.tail data_in data_in_iter copy_byte_count with
      | none => none
      | some block =>
        let tail := buffer.tail + copy_byte_count
        let tail := if tail = buffer.data_end then 0 else tail
        let buffer := { buffer with data_begin := block, tail := tail }
        let data_in_iter := data_in_iter + copy_byte_count
        if data_in_iter = data_in.length then some ((buffer, data_in_iter), [first])
        else
          match insert_range_second_log buffer data_in data_in_iter with
          | none => none
          | some (result, log) => some (result, first :: log)
    else insert_range_second_log buffer data_in data_in_iter

/-- The second copy of `circular_buffer_extract_range` (see `extract_range_second`),
instrumented: besides the result it reports the `memcpy` it performs, as the storage
offset read from and the value of `MIN(...)` before its conversion to `size_t`. -/
def extract_range_second_log (buffer : circular_buffer_t) (data_out : List byte)
    (data_out_iter : Nat) :
    Option ((circular_buffer_t × List byte × Nat) × List (Nat × Int)) :=
  let length := MIN ((buffer.tail : Int) - buffer.head)
    ((data_out.length : Int) - data_out_iter)
  let copy_byte_count := to_size_t length
  match memcpy data_out data_out_iter buffer.data_begin buffer.head copy_byte_count with
  | none => none
  | some out =>
    let head := buffer.head + copy_byte_count
    let first := (buffer.head, length)
    let buffer := { buffer with head := head }
    let buffer := if buffer.head = buffer.tail then { buffer with is_empty := true } else buffer
    some ((buffer, out, data_out_iter + copy_byte_count), [first])

/-- `circular_buffer_extract_range`, instrumented: besides the result it reports every
`memcpy` out of the storage, in order, as the offset read from and the value of
`MIN(...)` before its conversion to `size_t`. -/
def circular_buffer_extract_range_log (buffer : circular_buffer_t) (data_out : List byte) :
    Option ((circular_buffer_t × List byte × Nat) × List (Nat × Int)) :=
  let data_out_iter := 0
  if data_out_iter ≥ data_out.length ∨ circular_buffer_is_empty buffer = true then
    some ((buffer, data_out, data_out_iter), [])
  else
    if buffer.head ≥ buffer.tail then
      let length := MIN ((buffer.data_end : Int) - buffer.head)
        ((data_out.length : Int) - data_out_iter)
      let copy_byte_count := to_size_t length
      let first := (buffer.head, length)
      match memcpy data_out data_out_iter buffer.data_begin buffer.head copy_byte_count with
      | none => none
      | some out =>
        let head := buffer.head + copy_byte_count
        let head := if head = buffer.data_end then 0 else head
        let buffer := { buffer with head := head }
        let data_out_iter := data_out_iter + copy_byte_count
        let buffer := if buffer.head = buffer.tail then { buffer with is_empty := true } else buffer
        if data_out_iter = data_out.length then some ((buffer, out, data_out_iter), [first])
        else
          match extract_range_second_log buffer out data_out_iter with
          | none => none
          | some (result, log) => some (result, first :: log)
    else extract_range_second_log buffer data_out data_out_iter

/-- A buffer of capacity 5 holding the two bytes 4, 5 at the physical end of the
storage, with `tail` wrapped to offset 0. -/
def example_tail_zero : circular_buffer_t := ⟨false, [1, 2, 3, 4, 5], 5, 3, 0⟩

/-- The self-test `main`, with `fresh` the indeterminate bytes of the storage block.
The result is `none` if a copy leaves its block, otherwise whether every `assert`
holds. -/
def main (fresh : Nat → byte) : Option Bool :=
  let buffer_capacity := 5
  let buffer := circular_buffer_construct buffer_capacity fresh
  let a1 := circular_buffer_is_empty buffer
  let a2 := !circular_buffer_is_full buffer
  let data_size := 2 * buffer_capacity
  let data : List byte := (List.range data_size).map (fun i => Fin.ofNat (48 + i))
  match circular_buffer_insert_range buffer (data.take buffer_capacity) with
  | none => none
  | some (buffer, data_initial_insert_ptr) =>
    let a3 := decide (data_initial_insert_ptr = buffer_capacity)
    let a4 := !circular_buffer_is_empty buffer
    let a5 := circular_buffer_is_full buffer
    let data : List byte := (List.range data_size).map (fun _ => Fin.ofNat 97)
    match circular_buffer_extract_range buffer (data.take buffer_capacity) with
    | none => none
    | some (buffer, out, data_initial_extract_ptr) =>
      let data := out ++ data.drop buffer_capacity
      let a6 := decide (data_initial_extract_ptr = buffer_capacity)
      let a7 := circular_buffer_is_empty buffer
      let a8 := !circular_buffer_is_full buffer
      let a9 := (List.range buffer_capacity).all
        (fun i => decide (data[i]? = some (Fin.ofNat (48 + i))))
      let a10 := ((List.range data_size).drop buffer_capacity).all
        (fun i => decide (data[i]? = some (Fin.ofNat 97)))
      some (a1 && a2 && a3 && a4 && a5 && a6 && a7 && a8 && a9 && a10)


/-! ## Arithmetic and list lemmas -/

theorem to_size_t_MIN (a b c d : Nat) (hb : b ≤ a) (hd : d ≤ c) (ha : a < 2 ^ SIZE_WIDTH) :
    to_size_t (MIN ((a : Int) - b) ((c : Int) - d)) = min (a - b) (c - d) := by
  have h1 : ((a : Int) - b) = ((a - b : Nat) : Int) := by omega
  have h2 : ((c : Int) - d) = ((c - d : Nat) : Int) := by omega
  have h3 : MIN ((a : Int) - b) ((c : Int) - d) = ((min (a - b) (c - d) : Nat) : Int) := by
    unfold MIN
    split <;> omega
  rw [h3]
  have h4 : min (a - b) (c - d) < 2 ^ SIZE_WIDTH := by
    have : min (a - b) (c - d) ≤ a := by omega
    omega
  generalize min (a - b) (c - d) = m at h4 ⊢
  unfold to_size_t
  have h5 : (m : Int) < ((2 ^ SIZE_WIDTH : Nat) : Int) := Int.ofNat_lt.mpr h4
  rw [Int.emod_eq_of_lt (Int.ofNat_nonneg m) h5]
  exact Int.toNat_ofNat m

theorem memcpy_eq (dest : List byte) (d : Nat) (src : List byte) (s n : Nat)
    (hd : d + n ≤ dest.length) (hs : s + n ≤ src.length) :
    memcpy dest d src s n = some (dest.take d ++ ((src.drop s).take n ++ dest.drop (d + n))) := by
  simp [memcpy, hd, hs]

section splice
variable {α : Type}

theorem splice_length (D X : List α) (d : Nat) (h : d + X.length ≤ D.length) :
    (D.take d ++ (X ++ D.drop (d + X.length))).length = D.length := by
  simp only [List.length_append, List.length_take, List.length_drop]
  omega

theorem splice_drop_le (D X : List α) (d a : Nat) (h : d + X.length ≤ D.length) (ha : a ≤ d) :
    (D.take d ++ (X ++ D.drop (d + X.length))).drop a
      = (D.drop a).take (d - a) ++ (X ++ D.drop (d + X.length)) := by
  rw [List.drop_append_of_le_length (by simp; omega), List.drop_take]

theorem splice_drop_ge (D X : List α) (d a : Nat) (h : d + X.length ≤ D.length)
    (ha : d + X.length ≤ a) :
    (D.take d ++ (X ++ D.drop (d + X.length))).drop a = D.drop a := by
  have e : a = (D.take d ++ X).length + (a - (d + X.length)) := by
    simp only [List.length_append, List.length_take]; omega
  rw [← List.append_assoc, e, List.drop_append, List.drop_drop]
  congr 1
  simp only [List.length_append, List.length_take]; omega

theorem splice_take_le (D X : List α) (d a : Nat) (h : d + X.length ≤ D.length) (ha : a ≤ d) :
    (D.take d ++ (X ++ D.drop (d + X.length))).take a = D.take a := by
  rw [List.take_append_of_le_length (by simp; omega), List.take_take]
  congr 1; omega

theorem splice_take_end (D X : List α) (d : Nat) (h : d + X.length ≤ D.length) :
    (D.take d ++ (X ++ D.drop (d + X.length))).take (d + X.length) = D.take d ++ X := by
  have e : d + X.length = (D.take d ++ X).length := by
    simp only [List.length_append, List.length_take]; omega
  rw [← List.append_assoc, e, List.take_left]

theorem splice_mid (D X : List α) (d a : Nat) (h : d + X.length ≤ D.length) (ha : a ≤ d) :
    ((D.take d ++ (X ++ D.drop (d + X.length))).drop a).take (d + X.length - a)
      = (D.drop a).take (d - a) ++ X := by
  rw [splice_drop_le D X d a h ha]
  have e : d + X.length - a = ((D.drop a).take (d - a) ++ X).length := by
    simp only [List.length_append, List.length_take, List.length_drop]; omega
  rw [← List.append_assoc, e, List.take_left]

end splice

theorem contents_length (C : Nat) (b : circular_buffer_t) (hb : WF C b) :
    (contents b).length =
      if b.is_empty = true then 0
      else if b.head < b.tail then b.tail - b.head else C - b.head + b.tail := by
  obtain ⟨hl, -, hh, ht, -⟩ := hb
  unfold contents
  split
  · rfl
  · split
    · simp only [List.length_take, List.length_drop]; omega
    · simp only [List.length_append, List.length_take, List.length_drop]; omega

theorem insert_range_second_eq (e : Bool) (D : List byte) (E h t : Nat) (s : List byte) (i : Nat)
    (hth : t ≤ h) (hh : h ≤ D.length) (hi : i ≤ s.length) (hsz : h < 2 ^ SIZE_WIDTH) :
    insert_range_second ⟨e, D, E, h, t⟩ s i =
      some (⟨e, D.take t ++ ((s.drop i).take (min (h - t) (s.length - i))
              ++ D.drop (t + min (h - t) (s.length - i))), E, h,
              t + min (h - t) (s.length - i)⟩, i + min (h - t) (s.length - i)) := by
  unfold insert_range_second
  simp only [to_size_t_MIN h t s.length i hth hi hsz]
  rw [memcpy_eq _ _ _ _ _ (by omega) (by omega)]

theorem insert_range_first_eq (e : Bool) (D : List byte) (E h t : Nat) (s : List byte)
    (hs : 0 < s.length) (hnf : circular_buffer_is_full ⟨e, D, E, h, t⟩ = false)
    (hth : h ≤ t) (ht : t ≤ E) (hE : E ≤ D.length) (hsz : E < 2 ^ SIZE_WIDTH) :
    circular_buffer_insert_range ⟨e, D, E, h, t⟩ s =
      if min (E - t) s.length = s.length then
        some (⟨false, D.take t ++ (s.take (min (E - t) s.length)
                ++ D.drop (t + min (E - t) s.length)), E, h,
                if t + min (E - t) s.length = E then 0 else t + min (E - t) s.length⟩,
              min (E - t) s.length)
      else
        insert_range_second ⟨false, D.take t ++ (s.take (min (E - t) s.length)
                ++ D.drop (t + min (E - t) s.length)), E, h,
                if t + min (E - t) s.length = E then 0 else t + min (E - t) s.length⟩ s
              (min (E - t) s.length) := by
  have hs' : ¬ (0 ≥ s.length) := by omega
  have hc := to_size_t_MIN E t s.length 0 ht (Nat.zero_le _) hsz
  simp only [Nat.sub_zero] at hc
  unfold circular_buffer_insert_range
  simp only [hnf, hs', false_or, Bool.false_eq_true, if_false, ge_iff_le, hth, if_true, hc,
    Nat.zero_add]
  rw [memcpy_eq _ _ _ _ _ (by omega) (by omega)]
  simp only [List.drop_zero]

theorem insert_range_spec (C : Nat) (hC : C < 2 ^ SIZE_WIDTH) (b : circular_buffer_t)
    (hb : WF C b) (s : List byte) :
    ∃ b', circular_buffer_insert_range b s
          = some (b', min s.length (C - (contents b).length))
      ∧ WF C b' ∧ b'.head = b.head
      ∧ contents b' = contents b ++ s.take (min s.length (C - (contents b).length)) := by
  have hn := contents_length C b hb
  obtain ⟨hl, hE, hh, ht, he⟩ := hb
  rcases b with ⟨e, D, E, h, t⟩
  simp only at hl hE hh ht he hn
  subst hE
  by_cases hs : s.length = 0
  · refine ⟨_, ?_, ⟨hl, rfl, hh, ht, he⟩, rfl, ?_⟩
    · simp [circular_buffer_insert_range, hs]
    · simp [hs]
  by_cases hfull : e = false ∧ h = t
  · obtain ⟨rfl, rfl⟩ := hfull
    have hn' : (contents ⟨false, D, E, h, h⟩).length = E := by rw [hn]; simp; omega
    refine ⟨_, ?_, ⟨hl, rfl, hh, ht, he⟩, rfl, ?_⟩
    · simp [circular_buffer_insert_range, circular_buffer_is_full, circular_buffer_is_empty, hn']
    · simp [hn']
  have hnf : circular_buffer_is_full ⟨e, D, E, h, t⟩ = false := by
    cases e <;> simp_all [circular_buffer_is_full, circular_buffer_is_empty]
  have hs' : ¬ (0 ≥ s.length) := by omega
  by_cases hth : h ≤ t
  · have hold : contents ⟨e, D, E, h, t⟩ = (D.drop h).take (t - h) := by
      unfold contents
      cases e
      · have : h < t := by
          rcases Nat.lt_or_ge h t with h1 | h1
          · exact h1
          · exact absurd ⟨rfl, Nat.le_antisymm hth h1⟩ hfull
        simp [this]
      · have : h = t := he rfl
        simp [this]
    have hn2 : (contents ⟨e, D, E, h, t⟩).length = t - h := by
      rw [hold]; simp only [List.length_take, List.length_drop]; omega
    by_cases hfit : s.length ≤ E - t
    · have hc : min (E - t) s.length = s.length := by omega
      have hk : min s.length (E - (contents ⟨e, D, E, h, t⟩).length) = s.length := by
        rw [hn2]; omega
      have hb : t + s.length ≤ D.length := by omega
      rw [insert_range_first_eq e D E h t s (by omega) hnf hth (by omega) (by omega) hC, hk, hold]
      simp only [hc, if_true, List.take_length]
      refine ⟨_, rfl, ⟨?_, rfl, hh, ?_, by simp⟩, rfl, ?_⟩
      · exact (splice_length D s t hb).trans hl
      · show (if t + s.length = E then 0 else t + s.length) < E
        split <;> omega
      · by_cases hw : t + s.length = E
        · have hdrop : D.drop (t + s.length) = [] := List.drop_of_length_le (by omega)
          have h1 := splice_drop_le D s t h hb hth
          simp only [hdrop, List.append_nil] at h1 ⊢
          simp only [contents, hw, if_true, Bool.false_eq_true, if_false, Nat.not_lt_zero,
            List.take_zero, List.append_nil]
          exact h1
        · have h1 := splice_mid D s t h hb hth
          have h2 : h < t + s.length := by omega
          simp only [contents, hw, if_false, Bool.false_eq_true, h2, if_true]
          exact h1
    · have hc : min (E - t) s.length = E - t := by omega
      have hne : ¬ (E - t = s.length) := by omega
      have hw : t + (E - t) = E := by omega
      have hk : min s.length (E - (contents ⟨e, D, E, h, t⟩).length)
          = (E - t) + min h (s.length - (E - t)) := by
        rw [hn2]; omega
      rw [insert_range_first_eq e D E h t s (by omega) hnf hth (by omega) (by omega) hC, hk, hold]
      simp only [hc, hne, if_false, hw, if_true]
      have hD1 : D.drop E = [] := List.drop_of_length_le (by omega)
      rw [hD1, List.append_nil]
      have hl1 : (D.take t ++ s.take (E - t)).length = E := by
        simp only [List.length_append, List.length_take]; omega
      have hdr : (D.take t ++ s.take (E - t)).drop h = (D.drop h).take (t - h) ++ s.take (E - t) := by
        rw [List.drop_append_of_le_length (by simp; omega), List.drop_take]
      generalize D.take t ++ s.take (E - t) = D1 at hl1 hdr ⊢
      rw [insert_range_second_eq false D1 E h 0 s (E - t) (Nat.zero_le _) (by omega) (by omega)
        (by omega)]
      simp only [Nat.sub_zero, Nat.zero_add, List.take_zero, List.nil_append]
      have hX2 : ((s.drop (E - t)).take (min h (s.length - (E - t)))).length
          = min h (s.length - (E - t)) := by
        simp only [List.length_take, List.length_drop]; omega
      have hc2 : min h (s.length - (E - t)) ≤ h := by omega
      have htk : s.take (E - t + min h (s.length - (E - t)))
          = s.take (E - t) ++ (s.drop (E - t)).take (min h (s.length - (E - t))) := List.take_add _ _ _
      rw [htk]
      generalize min h (s.length - (E - t)) = c2 at hX2 hc2 ⊢
      generalize (s.drop (E - t)).take c2 = X2 at hX2 ⊢
      subst hX2
      have h3 := splice_drop_ge D1 X2 0 h (by omega) (by omega)
      have h4 := splice_take_end D1 X2 0 (by omega)
      simp only [List.take_zero, List.nil_append, Nat.zero_add] at h3 h4
      refine ⟨_, rfl, ⟨?_, rfl, hh, ?_, by simp⟩, rfl, ?_⟩
      · show (X2 ++ D1.drop X2.length).length = E
        simp only [List.length_append, List.length_drop]; omega
      · show X2.length < E
        omega
      · have hnlt : ¬ (h < X2.length) := by omega
        simp only [contents, Bool.false_eq_true, if_false, hnlt]
        rw [h3, h4, hdr, List.append_assoc]
  · have hlt : t < h := by omega
    have hef : e = false := by
      cases e
      · rfl
      · exact absurd (he rfl) (by omega)
    subst hef
    have hnlt : ¬ (h < t) := by omega
    have hold : contents ⟨false, D, E, h, t⟩ = D.drop h ++ D.take t := by
      simp only [contents, Bool.false_eq_true, if_false, hnlt]
    have hn2 : (contents ⟨false, D, E, h, t⟩).length = E - h + t := by
      rw [hn]; simp only [Bool.false_eq_true, if_false, hnlt]
    have hk : min s.length (E - (contents ⟨false, D, E, h, t⟩).length)
        = min (h - t) (s.length - 0) := by
      rw [hn2]; omega
    have hev : circular_buffer_insert_range ⟨false, D, E, h, t⟩ s
        = insert_range_second ⟨false, D, E, h, t⟩ s 0 := by
      unfold circular_buffer_insert_range
      simp only [hnf, hs', false_or, Bool.false_eq_true, if_false, ge_iff_le, hth]
    rw [hev, insert_range_second_eq false D E h t s 0 (by omega) (by omega) (Nat.zero_le _)
      (by omega), hk, hold]
    simp only [List.drop_zero, Nat.zero_add, Nat.sub_zero]
    have hX : (s.take (min (h - t) s.length)).length = min (h - t) s.length := by
      simp only [List.length_take]; omega
    have hc : min (h - t) s.length ≤ h - t := by omega
    generalize min (h - t) s.length = c at hX hc ⊢
    generalize s.take c = X at hX ⊢
    subst hX
    have h3 := splice_drop_ge D X t h (by omega) (by omega)
    have h4 := splice_take_end D X t (by omega)
    refine ⟨_, rfl, ⟨?_, rfl, hh, ?_, by simp⟩, rfl, ?_⟩
    · exact (splice_length D X t (by omega)).trans hl
    · show t + X.length < E
      omega
    · have hnlt2 : ¬ (h < t + X.length) := by omega
      simp only [contents, Bool.false_eq_true, if_false, hnlt2]
      rw [h3, h4, List.append_assoc]

theorem extract_range_second_eq (e : Bool) (D : List byte) (E h t : Nat) (out : List byte)
    (i : Nat) (hht : h ≤ t) (ht : t ≤ D.length) (hi : i ≤ out.length)
    (hsz : t < 2 ^ SIZE_WIDTH) :
    extract_range_second ⟨e, D, E, h, t⟩ out i =
      some (if h + min (t - h) (out.length - i) = t
              then ⟨true, D, E, h + min (t - h) (out.length - i), t⟩
              else ⟨e, D, E, h + min (t - h) (out.length - i), t⟩,
            out.take i ++ ((D.drop h).take (min (t - h) (out.length - i))
              ++ out.drop (i + min (t - h) (out.length - i))),
            i + min (t - h) (out.length - i)) := by
  unfold extract_range_second
  simp only [to_size_t_MIN t h out.length i hht hi hsz]
  rw [memcpy_eq _ _ _ _ _ (by omega) (by omega)]

theorem extract_range_first_eq (D : List byte) (E h t : Nat) (dst : List byte)
    (hd : 0 < dst.length) (hth : t ≤ h) (hh : h ≤ E) (hE : E ≤ D.length)
    (hsz : E < 2 ^ SIZE_WIDTH) :
    circular_buffer_extract_range ⟨false, D, E, h, t⟩ dst =
      if min (E - h) dst.length = dst.length then
        some (if (if h + min (E - h) dst.length = E then 0 else h + min (E - h) dst.length) = t
                then ⟨true, D, E,
                  if h + min (E - h) dst.length = E then 0 else h + min (E - h) dst.length, t⟩
                else ⟨false, D, E,
                  if h + min (E - h) dst.length = E then 0 else h + min (E - h) dst.length, t⟩,
              (D.drop h).take (min (E - h) dst.length) ++ dst.drop (min (E - h) dst.length),
              min (E - h) dst.length)
      else
        extract_range_second
          (if (if h + min (E - h) dst.length = E then 0 else h + min (E - h) dst.length) = t
                then ⟨true, D, E,
                  if h + min (E - h) dst.length = E then 0 else h + min (E - h) dst.length, t⟩
                else ⟨false, D, E,
                  if h + min (E - h) dst.length = E then 0 else h + min (E - h) dst.length, t⟩)
          ((D.drop h).take (min (E - h) dst.length) ++ dst.drop (min (E - h) dst.length))
          (min (E - h) dst.length) := by
  have hd' : ¬ (0 ≥ dst.length) := by omega
  have hc := to_size_t_MIN E h dst.length 0 hh (Nat.zero_le _) hsz
  simp only [Nat.sub_zero] at hc
  unfold circular_buffer_extract_range
  simp only [hd', circular_buffer_is_empty, Bool.false_eq_true, or_self, if_false, ge_iff_le,
    hth, if_true, hc, Nat.zero_add]
  rw [memcpy_eq _ _ _ _ _ (by omega) (by omega)]
  simp only [List.take_zero, List.nil_append, Nat.zero_add]

theorem extract_range_spec (C : Nat) (hC : C < 2 ^ SIZE_WIDTH) (b : circular_buffer_t)
    (hb : WF C b) (dst : List byte) :
    ∃ b', circular_buffer_extract_range b dst
          = some (b', (contents b).take (min dst.length (contents b).length)
                        ++ dst.drop (min dst.length (contents b).length),
                  min dst.length (contents b).length)
      ∧ WF C b' ∧ b'.tail = b.tail ∧ b'.data_begin = b.data_begin
      ∧ contents b' = (contents b).drop (min dst.length (contents b).length) := by
  have hn := contents_length C b hb
  obtain ⟨hl, hE, hh, ht, he⟩ := hb
  rcases b with ⟨e, D, E, h, t⟩
  simp only at hl hE hh ht he hn
  subst hE
  by_cases hs : dst.length = 0
  · refine ⟨_, ?_, ⟨hl, rfl, hh, ht, he⟩, rfl, rfl, ?_⟩
    · simp [circular_buffer_extract_range, hs]
    · simp [hs]
  cases e
  swap
  · have hn' : (contents ⟨true, D, E, h, t⟩).length = 0 := by rw [hn]; simp
    refine ⟨_, ?_, ⟨hl, rfl, hh, ht, he⟩, rfl, rfl, ?_⟩
    · simp [circular_buffer_extract_range, circular_buffer_is_empty, hn']
    · simp [hn']
  simp only [Bool.false_eq_true, if_false] at hn
  by_cases hth : t ≤ h
  · have hnlt : ¬ (h < t) := by omega
    have hold : contents ⟨false, D, E, h, t⟩ = D.drop h ++ D.take t := by
      simp only [contents, Bool.false_eq_true, if_false, hnlt]
    simp only [hnlt, if_false] at hn
    have hdl : (D.drop h).length = E - h := by simp only [List.length_drop]; omega
    by_cases hfit : dst.length ≤ E - h
    · have hc : min (E - h) dst.length = dst.length := by omega
      have hk : min dst.length (contents ⟨false, D, E, h, t⟩).length = dst.length := by
        rw [hn]; omega
      rw [extract_range_first_eq D E h t dst (by omega) hth (by omega) (by omega) hC, hk, hold]
      simp only [hc, if_true]
      have htk : (D.drop h ++ D.take t).take dst.length = (D.drop h).take dst.length :=
        List.take_append_of_le_length (by omega)
      rw [htk]
      by_cases hw : h + dst.length = E
      · simp only [hw, if_true]
        have hm : dst.length = (D.drop h).length := by omega
        by_cases ht0 : 0 = t
        · subst ht0
          simp only [if_true]
          refine ⟨_, rfl, ⟨hl, rfl, by show 0 < E; omega, by show 0 < E; omega, fun _ => rfl⟩,
            rfl, rfl, ?_⟩
          simp only [contents, if_true, List.take_zero, List.append_nil]
          rw [hm, List.drop_length]
        · simp only [ht0, if_false]
          refine ⟨_, rfl, ⟨hl, rfl, by show 0 < E; omega, ht, by simp⟩, rfl, rfl, ?_⟩
          have h0t : 0 < t := by omega
          simp only [contents, Bool.false_eq_true, if_false, h0t, if_true, List.drop_zero,
            Nat.sub_zero]
          rw [hm, List.drop_left]
      · have hne : ¬ (h + dst.length = t) := by omega
        simp only [hw, if_false, hne]
        refine ⟨_, rfl, ⟨hl, rfl, by show h + dst.length < E; omega, ht, by simp⟩,
          rfl, rfl, ?_⟩
        have hnlt2 : ¬ (h + dst.length < t) := by omega
        simp only [contents, Bool.false_eq_true, if_false, hnlt2]
        rw [List.drop_append_of_le_length (by omega), List.drop_drop]
    · have hc : min (E - h) dst.length = E - h := by omega
      have hne : ¬ (E - h = dst.length) := by omega
      have hw : h + (E - h) = E := by omega
      have hk : min dst.length (contents ⟨false, D, E, h, t⟩).length
          = (E - h) + min t (dst.length - (E - h)) := by
        rw [hn]; omega
      rw [extract_range_first_eq D E h t dst (by omega) hth (by omega) (by omega) hC, hk, hold]
      simp only [hc, hne, if_false, hw, if_true]
      have hfull : (D.drop h).take (E - h) = D.drop h := List.take_of_length_le (by omega)
      rw [hfull]
      have hol : (D.drop h ++ dst.drop (E - h)).length = dst.length := by
        simp only [List.length_append, List.length_drop]; omega
      have hot : (D.drop h ++ dst.drop (E - h)).take (E - h) = D.drop h := by
        rw [← hdl, List.take_left]
      have hod : ∀ c, (D.drop h ++ dst.drop (E - h)).drop (E - h + c) = dst.drop (E - h + c) := by
        intro c
        rw [← hdl, List.drop_append, List.drop_drop, hdl]
      have hc2 : min t (dst.length - (E - h)) ≤ t := by omega
      have hexp : (D.drop h ++ D.take t).take (E - h + min t (dst.length - (E - h)))
          = D.drop h ++ D.take (min t (dst.length - (E - h))) := by
        rw [← hdl, List.take_append, List.take_take, hdl]
        congr 2
        omega
      have hexd : (D.drop h ++ D.take t).drop (E - h + min t (dst.length - (E - h)))
          = (D.drop (min t (dst.length - (E - h)))).take (t - min t (dst.length - (E - h))) := by
        rw [← hdl, List.drop_append, List.drop_take]
      rw [hexp, hexd]
      have hsec : ∀ e1, extract_range_second ⟨e1, D, E, 0, t⟩ (D.drop h ++ dst.drop (E - h))
            (E - h)
          = some (if min t (dst.length - (E - h)) = t
                    then ⟨true, D, E, min t (dst.length - (E - h)), t⟩
                    else ⟨e1, D, E, min t (dst.length - (E - h)), t⟩,
                  D.drop h ++ (D.take (min t (dst.length - (E - h)))
                    ++ dst.drop (E - h + min t (dst.length - (E - h)))),
                  E - h + min t (dst.length - (E - h))) := by
        intro e1
        rw [extract_range_second_eq e1 D E 0 t _ (E - h) (Nat.zero_le _) (by omega) (by omega)
          (by omega)]
        simp only [hol, hot, hod, Nat.sub_zero, Nat.zero_add, List.drop_zero]
      have hres : extract_range_second
            (if 0 = t then ⟨true, D, E, 0, t⟩ else ⟨false, D, E, 0, t⟩)
            (D.drop h ++ dst.drop (E - h)) (E - h)
          = some (if min t (dst.length - (E - h)) = t
                    then ⟨true, D, E, min t (dst.length - (E - h)), t⟩
                    else ⟨false, D, E, min t (dst.length - (E - h)), t⟩,
                  D.drop h ++ (D.take (min t (dst.length - (E - h)))
                    ++ dst.drop (E - h + min t (dst.length - (E - h)))),
                  E - h + min t (dst.length - (E - h))) := by
        by_cases ht0 : 0 = t
        · subst ht0
          simp only [if_true]
          rw [hsec true]
          simp
        · simp only [ht0, if_false]
          exact hsec false
      rw [hres]
      generalize min t (dst.length - (E - h)) = c2 at hc2 ⊢
      by_cases hct : c2 = t
      · subst hct
        simp only [if_true, List.append_assoc]
        refine ⟨_, rfl, ⟨hl, rfl, ht, ht, fun _ => rfl⟩, rfl, rfl, ?_⟩
        simp [contents]
      · simp only [hct, if_false, List.append_assoc]
        refine ⟨_, rfl, ⟨hl, rfl, by show c2 < E; omega, ht, by simp⟩, rfl, rfl, ?_⟩
        have hlt : c2 < t := by omega
        simp only [contents, Bool.false_eq_true, if_false, hlt, if_true]
  · have hlt : h < t := by omega
    have hold : contents ⟨false, D, E, h, t⟩ = (D.drop h).take (t - h) := by
      simp only [contents, Bool.false_eq_true, if_false, hlt, if_true]
    simp only [hlt, if_true] at hn
    have hk : min dst.length (contents ⟨false, D, E, h, t⟩).length
        = min (t - h) (dst.length - 0) := by
      rw [hn]; omega
    have hs' : ¬ (0 ≥ dst.length) := by omega
    have hev : circular_buffer_extract_range ⟨false, D, E, h, t⟩ dst
        = extract_range_second ⟨false, D, E, h, t⟩ dst 0 := by
      unfold circular_buffer_extract_range
      simp only [hs', circular_buffer_is_empty, Bool.false_eq_true, or_self, if_false, ge_iff_le,
        hth]
    rw [hev, extract_range_second_eq false D E h t dst 0 (by omega) (by omega) (Nat.zero_le _)
      (by omega), hk, hold]
    simp only [List.take_zero, List.nil_append, Nat.zero_add, Nat.sub_zero]
    have hc : min (t - h) dst.length ≤ t - h := by omega
    generalize min (t - h) dst.length = c at hc ⊢
    have htk : ((D.drop h).take (t - h)).take c = (D.drop h).take c := by
      rw [List.take_take]; congr 1; omega
    have hdk : ((D.drop h).take (t - h)).drop c = (D.drop (h + c)).take (t - (h + c)) := by
      rw [List.drop_take, List.drop_drop]; congr 1; omega
    rw [htk, hdk]
    by_cases hct : h + c = t
    · simp only [hct, if_true]
      refine ⟨_, rfl, ⟨hl, rfl, ht, ht, fun _ => rfl⟩, rfl, rfl, ?_⟩
      simp [contents]
    · simp only [hct, if_false]
      refine ⟨_, rfl, ⟨hl, rfl, by show h + c < E; omega, ht, by simp⟩, rfl, rfl, ?_⟩
      have hlt2 : h + c < t := by omega
      simp only [contents, Bool.false_eq_true, if_false, hlt2, if_true]

/-! ## Invariant and observers -/

theorem WF_construct (C : Nat) (hC : 1 ≤ C) (fresh : Nat → byte) :
    WF C (circular_buffer_construct C fresh) := by
  refine ⟨?_, rfl, ?_, ?_, fun _ => rfl⟩
  · simp [circular_buffer_construct]
  · show 0 < C
    omega
  · show 0 < C
    omega

theorem contents_construct (C : Nat) (fresh : Nat → byte) :
    contents (circular_buffer_construct C fresh) = [] := by
  simp [contents, circular_buffer_construct]

theorem is_empty_iff (C : Nat) (b : circular_buffer_t) (hb : WF C b) :
    circular_buffer_is_empty b = true ↔ (contents b).length = 0 := by
  rw [contents_length C b hb]
  have hh := hb.head
  have ht := hb.tail
  unfold circular_buffer_is_empty
  cases b.is_empty
  · simp only [Bool.false_eq_true, if_false, false_iff]
    split <;> omega
  · simp

theorem is_full_iff (C : Nat) (b : circular_buffer_t) (hb : WF C b) :
    circular_buffer_is_full b = true ↔ (contents b).length = C := by
  rw [contents_length C b hb]
  have hh := hb.head
  have ht := hb.tail
  unfold circular_buffer_is_full circular_buffer_is_empty
  cases b.is_empty
  · simp only [Bool.not_false, Bool.true_and, decide_eq_true_eq, Bool.false_eq_true, if_false]
    split <;> omega
  · simp only [Bool.not_true, Bool.false_and, Bool.false_eq_true, if_true, false_iff]
    omega

theorem insert_value_spec (C : Nat) (hC : C < 2 ^ SIZE_WIDTH) (b : circular_buffer_t)
    (hb : WF C b) (v : byte) :
    ∃ b', circular_buffer_insert_value b v
          = some (b', decide ((contents b).length < C))
      ∧ WF C b' ∧ b'.head = b.head
      ∧ contents b' = contents b ++ (if (contents b).length < C then [v] else []) := by
  obtain ⟨b', h1, h2, h3, h4⟩ := insert_range_spec C hC b hb [v]
  refine ⟨b', ?_, h2, h3, ?_⟩
  · unfold circular_buffer_insert_value
    rw [h1]
    simp only [List.length_singleton, Option.some.injEq, Prod.mk.injEq, true_and,
      decide_eq_decide]
    omega
  · rw [h4]
    congr 1
    by_cases hlt : (contents b).length < C
    · have : min [v].length (C - (contents b).length) = 1 := by
        simp only [List.length_singleton]; omega
      rw [this]; simp [hlt]
    · have : min [v].length (C - (contents b).length) = 0 := by
        simp only [List.length_singleton]; omega
      rw [this]; simp [hlt]

theorem extract_value_spec (C : Nat) (hC : C < 2 ^ SIZE_WIDTH) (b : circular_buffer_t)
    (hb : WF C b) (v : byte) :
    ∃ b', circular_buffer_extract_value b v = some (b', (contents b).headD v)
      ∧ WF C b' ∧ b'.tail = b.tail ∧ b'.data_begin = b.data_begin
      ∧ contents b' = (contents b).drop 1 := by
  obtain ⟨b', h1, h2, h3, h4, h5⟩ := extract_range_spec C hC b hb [v]
  refine ⟨b', ?_, h2, h3, h4, ?_⟩
  · unfold circular_buffer_extract_value
    rw [h1]
    cases hcs : contents b with
    | nil => simp
    | cons c cs => simp
  · rw [h5]
    cases hcs : contents b with
    | nil => simp
    | cons c cs => simp

theorem Reachable_size (C : Nat) (b : circular_buffer_t) (hr : Reachable C b) :
    C < 2 ^ SIZE_WIDTH := by
  induction hr with
  | construct hC fresh => exact hC
  | insert_range s _ _ ih => exact ih
  | insert_value v _ _ ih => exact ih
  | extract_range dst _ _ ih => exact ih
  | extract_value v _ _ ih => exact ih

theorem Reachable_WF (C : Nat) (hC : 1 ≤ C) (b : circular_buffer_t) (hr : Reachable C b) :
    WF C b := by
  induction hr with
  | construct hsz fresh => exact WF_construct C hC fresh
  | insert_range s hr' hstep ih =>
    obtain ⟨b1, h1, h2, -⟩ := insert_range_spec C (Reachable_size C _ hr') _ ih s
    rw [h1] at hstep
    cases hstep
    exact h2
  | insert_value v hr' hstep ih =>
    obtain ⟨b1, h1, h2, -⟩ := insert_value_spec C (Reachable_size C _ hr') _ ih v
    rw [h1] at hstep
    cases hstep
    exact h2
  | extract_range dst hr' hstep ih =>
    obtain ⟨b1, h1, h2, -⟩ := extract_range_spec C (Reachable_size C _ hr') _ ih dst
    rw [h1] at hstep
    cases hstep
    exact h2
  | extract_value v hr' hstep ih =>
    obtain ⟨b1, h1, h2, -⟩ := extract_value_spec C (Reachable_size C _ hr') _ ih v
    rw [h1] at hstep
    cases hstep
    exact h2

/-! ## Sequences of calls -/

theorem run_spec (C : Nat) (hC : C < 2 ^ SIZE_WIDTH) (ops : List Op) :
    ∀ b, WF C b → ∃ b' accepted extracted, run b ops = some (b', accepted, extracted)
      ∧ WF C b' ∧ contents b ++ accepted = extracted ++ contents b'
      ∧ (fits C (contents b).length ops → accepted = inserted ops) := by
  induction ops with
  | nil =>
    intro b hb
    exact ⟨b, [], [], rfl, hb, by simp, fun _ => rfl⟩
  | cons op ops ih =>
    intro b hb
    cases op with
    | insert s =>
      obtain ⟨b1, h1, h2, -, h4⟩ := insert_range_spec C hC b hb s
      obtain ⟨b2, acc, ext, r1, r2, r3, r4⟩ := ih b1 h2
      refine ⟨b2, s.take (min s.length (C - (contents b).length)) ++ acc, ext, ?_, r2, ?_, ?_⟩
      · simp only [run, h1, r1]
      · rw [← r3, h4, List.append_assoc]
      · intro hf
        obtain ⟨hf1, hf2⟩ := hf
        have hk : min s.length (C - (contents b).length) = s.length := by omega
        rw [hk, List.take_length] at h4 ⊢
        have hlen : (contents b1).length = (contents b).length + s.length := by
          rw [h4, List.length_append]
        rw [hlen] at r4
        simp only [inserted, r4 hf2]
    | extract dst =>
      obtain ⟨b1, h1, h2, -, -, h5⟩ := extract_range_spec C hC b hb dst
      obtain ⟨b2, acc, ext, r1, r2, r3, r4⟩ := ih b1 h2
      have hk : min dst.length (contents b).length ≤ (contents b).length := by omega
      have htk : ((contents b).take (min dst.length (contents b).length)
            ++ dst.drop (min dst.length (contents b).length)).take
              (min dst.length (contents b).length)
          = (contents b).take (min dst.length (contents b).length) := by
        rw [List.take_append_of_le_length (by simp), List.take_take, Nat.min_self]
      refine ⟨b2, acc, ((contents b).take (min dst.length (contents b).length)
            ++ dst.drop (min dst.length (contents b).length)).take
              (min dst.length (contents b).length) ++ ext, ?_, r2, ?_, ?_⟩
      · simp only [run, h1, r1]
      · rw [htk, List.append_assoc, ← r3, h5, ← List.append_assoc, List.take_append_drop]
      · intro hf
        have hlen : (contents b1).length
            = (contents b).length - min dst.length (contents b).length := by
          rw [h5, List.length_drop]
        rw [hlen] at r4
        simp only [inserted, r4 hf]

/-- C1 (FIFO order): for every capacity `C ≥ 1` and every finite sequence of
`insert_range` / `extract_range` calls on a freshly constructed buffer, all calls return,
the concatenation of the extracted bytes is the prefix (of its own length) of the
concatenation of the accepted bytes, and when every insert fits in the free space the
accepted bytes are all the inserted bytes, so the extracted bytes are a prefix of the
inserted bytes in insertion order. -/
theorem C1_fifo_order (C : Nat) (hC : 1 ≤ C) (hsz : C < 2 ^ SIZE_WIDTH) (fresh : Nat → byte)
    (ops : List Op) :
    ∃ b accepted extracted,
      run (circular_buffer_construct C fresh) ops = some (b, accepted, extracted)
      ∧ extracted = accepted.take extracted.length
      ∧ (fits C 0 ops →
          accepted = inserted ops ∧ extracted = (inserted ops).take extracted.length) := by
  obtain ⟨b, acc, ext, h1, -, h3, h4⟩ :=
    run_spec C hsz ops (circular_buffer_construct C fresh) (WF_construct C hC fresh)
  rw [contents_construct, List.nil_append] at h3
  simp only [contents_construct, List.length_nil] at h4
  have hp : ext = acc.take ext.length := by
    rw [h3, List.take_left]
  refine ⟨b, acc, ext, h1, hp, fun hf => ?_⟩
  have ha := h4 hf
  exact ⟨ha, ha ▸ hp⟩

/-- Witness for C1 at capacity 3: the second insert crosses the physical end of the
storage, and every insert fits. -/
theorem C1_fifo_order_witness :
    (1 ≤ 3 ∧ 3 < 2 ^ SIZE_WIDTH) ∧
    ∃ b accepted extracted,
      run (circular_buffer_construct 3 (fun _ => 0)) example_ops = some (b, accepted, extracted)
      ∧ extracted = accepted.take extracted.length
      ∧ (fits 3 0 example_ops →
          accepted = inserted example_ops
          ∧ extracted = (inserted example_ops).take extracted.length) :=
  ⟨⟨by decide, by decide⟩,
    C1_fifo_order 3 (by decide) (by decide) (fun _ => 0) example_ops⟩

theorem example_ops_run :
    run (circular_buffer_construct 3 (fun _ => 0)) example_ops
      = some (⟨true, [4, 5, 3], 3, 2, 2⟩, [1, 2, 3, 4, 5], [1, 2, 3, 4, 5])
    ∧ fits 3 0 example_ops := by
  refine ⟨by decide, ?_⟩
  simp [fits, example_ops]

/-! ## Example states -/

theorem example_empty_reachable : Reachable 5 example_empty :=
  Reachable.extract_range [9, 9, 9]
    (Reachable.insert_range [1, 2, 3] (Reachable.construct (by decide) (fun _ => 0))
      (by decide : circular_buffer_insert_range (circular_buffer_construct 5 (fun _ => 0))
          [1, 2, 3] = some (⟨false, [1, 2, 3, 0, 0], 5, 0, 3⟩, 3)))
    (by decide : circular_buffer_extract_range ⟨false, [1, 2, 3, 0, 0], 5, 0, 3⟩ [9, 9, 9]
        = some (example_empty, [1, 2, 3], 3))

theorem example_wrapped_reachable : Reachable 5 example_wrapped :=
  Reachable.insert_range [4, 5, 6, 7] example_empty_reachable
    (by decide : circular_buffer_insert_range example_empty [4, 5, 6, 7]
        = some (example_wrapped, 4))

theorem example_full_reachable : Reachable 5 example_full :=
  Reachable.insert_range [8, 9] example_wrapped_reachable
    (by decide : circular_buffer_insert_range example_wrapped [8, 9]
        = some (example_full, 1))

theorem contents_length_le (C : Nat) (b : circular_buffer_t) (hb : WF C b) :
    (contents b).length ≤ C := by
  rw [contents_length C b hb]
  have hh := hb.head
  have ht := hb.tail
  split
  · omega
  · split <;> omega

theorem contents_head (C : Nat) (b : circular_buffer_t) (hb : WF C b)
    (hne : b.is_empty = false) : (contents b)[0]? = b.data_begin[b.head]? := by
  obtain ⟨hl, -, hh, ht, -⟩ := hb
  unfold contents
  simp only [hne, Bool.false_eq_true, if_false]
  split
  · rename_i hlt
    rw [List.getElem?_take_of_lt (by omega), List.getElem?_drop, Nat.add_zero]
  · rw [List.getElem?_append_left (by simp only [List.length_drop]; omega), List.getElem?_drop,
      Nat.add_zero]

/-! ## Capacity 0 -/

theorem insert_range_zero (e : Bool) (s : List byte) :
    ∃ e', circular_buffer_insert_range ⟨e, [], 0, 0, 0⟩ s = some (⟨e', [], 0, 0, 0⟩, 0) := by
  by_cases hs : s.length = 0
  · exact ⟨e, by simp [circular_buffer_insert_range, hs]⟩
  cases e
  · exact ⟨false, by simp [circular_buffer_insert_range, circular_buffer_is_full,
      circular_buffer_is_empty]⟩
  · refine ⟨false, ?_⟩
    rw [insert_range_first_eq true [] 0 0 0 s (by omega) (by rfl) (Nat.le_refl _)
      (Nat.le_refl _) (by simp) (by decide)]
    have hne : ¬ (0 = s.length) := by omega
    simp only [Nat.sub_self, Nat.zero_min, hne, if_false, Nat.add_zero, if_true]
    rw [insert_range_second_eq false _ 0 0 0 s 0 (Nat.le_refl _) (Nat.zero_le _)
      (Nat.zero_le _) (by decide)]
    simp

theorem extract_range_zero (e : Bool) (dst : List byte) :
    ∃ e', circular_buffer_extract_range ⟨e, [], 0, 0, 0⟩ dst
      = some (⟨e', [], 0, 0, 0⟩, dst, 0) := by
  by_cases hs : dst.length = 0
  · exact ⟨e, by simp [circular_buffer_extract_range, hs]⟩
  cases e
  swap
  · exact ⟨true, by simp [circular_buffer_extract_range, circular_buffer_is_empty]⟩
  · refine ⟨true, ?_⟩
    rw [extract_range_first_eq [] 0 0 0 dst (by omega) (Nat.le_refl _) (Nat.le_refl _)
      (by simp) (by decide)]
    have hne : ¬ (0 = dst.length) := by omega
    simp only [Nat.sub_self, Nat.zero_min, hne, if_false, Nat.add_zero, if_true]
    rw [extract_range_second_eq true [] 0 0 0 _ 0 (Nat.le_refl _) (Nat.zero_le _)
      (Nat.zero_le _) (by decide)]
    simp

theorem Reachable_zero (b : circular_buffer_t) (hr : Reachable 0 b) :
    ∃ e, b = ⟨e, [], 0, 0, 0⟩ := by
  induction hr with
  | construct hsz fresh => exact ⟨true, rfl⟩
  | insert_range s hr' hstep ih =>
    obtain ⟨e, rfl⟩ := ih
    obtain ⟨e', h1⟩ := insert_range_zero e s
    rw [h1] at hstep
    cases hstep
    exact ⟨e', rfl⟩
  | insert_value v hr' hstep ih =>
    obtain ⟨e, rfl⟩ := ih
    obtain ⟨e', h1⟩ := insert_range_zero e [v]
    unfold circular_buffer_insert_value at hstep
    rw [h1] at hstep
    cases hstep
    exact ⟨e', rfl⟩
  | extract_range dst hr' hstep ih =>
    obtain ⟨e, rfl⟩ := ih
    obtain ⟨e', h1⟩ := extract_range_zero e dst
    rw [h1] at hstep
    cases hstep
    exact ⟨e', rfl⟩
  | extract_value v hr' hstep ih =>
    obtain ⟨e, rfl⟩ := ih
    obtain ⟨e', h1⟩ := extract_range_zero e [v]
    unfold circular_buffer_extract_value at hstep
    rw [h1] at hstep
    cases hstep
    exact ⟨e', rfl⟩

/-! ## Contracts of the operations -/

/-- C2 (insert_range): in a state reachable from `construct(C)`, `C ≥ 1`, that stores
`n` bytes, `insert_range` of a source `s` returns exactly `min(|s|, C - n)` and the
logical contents afterwards are the old contents followed by that many leading bytes of
`s`; when `|s| > C - n` the count is the free space `C - n` and the buffer is full. -/
theorem C2_insert_range_result (C : Nat) (hC : 1 ≤ C) (b : circular_buffer_t)
    (hr : Reachable C b) (s : List byte) :
    ∃ b', circular_buffer_insert_range b s
          = some (b', min s.length (C - (contents b).length))
      ∧ contents b' = contents b ++ s.take (min s.length (C - (contents b).length))
      ∧ (C - (contents b).length < s.length →
          min s.length (C - (contents b).length) = C - (contents b).length
          ∧ circular_buffer_is_full b' = true) := by
  have hb := Reachable_WF C hC b hr
  obtain ⟨b', h1, h2, -, h4⟩ := insert_range_spec C (Reachable_size C b hr) b hb s
  refine ⟨b', h1, h4, fun hlt => ⟨by omega, ?_⟩⟩
  rw [is_full_iff C b' h2, h4, List.length_append, List.length_take]
  have := contents_length_le C b hb
  omega

/-- Witness for C2: six bytes offered to a wrapped buffer of capacity 5 holding four. -/
theorem C2_insert_range_result_witness :
    (1 ≤ 5 ∧ Reachable 5 example_wrapped) ∧
    ∃ b', circular_buffer_insert_range example_wrapped [8, 9, 10, 11, 12, 13]
          = some (b', min [8, 9, 10, 11, 12, 13].length (5 - (contents example_wrapped).length))
      ∧ contents b' = contents example_wrapped
          ++ [8, 9, 10, 11, 12, 13].take
              (min [8, 9, 10, 11, 12, 13].length (5 - (contents example_wrapped).length))
      ∧ (5 - (contents example_wrapped).length < [8, 9, 10, 11, 12, 13].length →
          min [8, 9, 10, 11, 12, 13].length (5 - (contents example_wrapped).length)
            = 5 - (contents example_wrapped).length
          ∧ circular_buffer_is_full b' = true) :=
  ⟨⟨by decide, example_wrapped_reachable⟩,
    C2_insert_range_result 5 (by decide) example_wrapped example_wrapped_reachable
      [8, 9, 10, 11, 12, 13]⟩

/-- C3 (extract_range): in a state reachable from `construct(C)`, `C ≥ 1`, that stores
`n` bytes, `extract_range` into a destination of length `m` returns exactly
`k = min(m, n)`, the first `k` bytes of the destination are the `k` oldest stored bytes
in order, and the logical contents afterwards are the old contents without them. -/
theorem C3_extract_range_result (C : Nat) (hC : 1 ≤ C) (b : circular_buffer_t)
    (hr : Reachable C b) (dst : List byte) :
    ∃ b' out, circular_buffer_extract_range b dst
          = some (b', out, min dst.length (contents b).length)
      ∧ out.take (min dst.length (contents b).length)
          = (contents b).take (min dst.length (contents b).length)
      ∧ contents b' = (contents b).drop (min dst.length (contents b).length) := by
  have hb := Reachable_WF C hC b hr
  obtain ⟨b', h1, -, -, -, h5⟩ := extract_range_spec C (Reachable_size C b hr) b hb dst
  refine ⟨b', _, h1, ?_, h5⟩
  rw [List.take_append_of_le_length (by simp), List.take_take, Nat.min_self]

/-- Witness for C3: three bytes extracted from a wrapped buffer holding four. -/
theorem C3_extract_range_result_witness :
    (1 ≤ 5 ∧ Reachable 5 example_wrapped) ∧
    ∃ b' out, circular_buffer_extract_range example_wrapped [0, 0, 0]
          = some (b', out, min [0, 0, 0].length (contents example_wrapped).length)
      ∧ out.take (min [0, 0, 0].length (contents example_wrapped).length)
          = (contents example_wrapped).take
              (min [0, 0, 0].length (contents example_wrapped).length)
      ∧ contents b' = (contents example_wrapped).drop
              (min [0, 0, 0].length (contents example_wrapped).length) :=
  ⟨⟨by decide, example_wrapped_reachable⟩,
    C3_extract_range_result 5 (by decide) example_wrapped example_wrapped_reachable [0, 0, 0]⟩

theorem contents_eq_nil (C : Nat) (b : circular_buffer_t) (hb : WF C b)
    (he : circular_buffer_is_empty b = true) : contents b = [] :=
  List.eq_nil_of_length_eq_zero ((is_empty_iff C b hb).mp he)

/-- C4 (round trip at any wrap position): from every reachable empty state of a buffer
of capacity `C ≥ 1`, inserting a sequence `s` with `|s| ≤ C` returns `|s|`, and a
following `extract_range` into a destination of length `|s|` returns `|s|`, leaves the
destination equal to `s` and leaves the buffer empty. -/
theorem C4_round_trip (C : Nat) (hC : 1 ≤ C) (b : circular_buffer_t) (hr : Reachable C b)
    (he : circular_buffer_is_empty b = true) (s : List byte) (hs : s.length ≤ C)
    (dst : List byte) (hd : dst.length = s.length) :
    ∃ b1 b2, circular_buffer_insert_range b s = some (b1, s.length)
      ∧ circular_buffer_extract_range b1 dst = some (b2, s, s.length)
      ∧ circular_buffer_is_empty b2 = true := by
  have hsz := Reachable_size C b hr
  have hb := Reachable_WF C hC b hr
  have hnil := contents_eq_nil C b hb he
  obtain ⟨b1, h1, h2, -, h4⟩ := insert_range_spec C hsz b hb s
  have hk : min s.length (C - (contents b).length) = s.length := by
    rw [hnil, List.length_nil]; omega
  rw [hk] at h1 h4
  rw [hnil, List.nil_append, List.take_length] at h4
  obtain ⟨b2, e1, e2, -, -, e5⟩ := extract_range_spec C hsz b1 h2 dst
  have hk2 : min dst.length (contents b1).length = s.length := by
    rw [h4, hd, Nat.min_self]
  rw [hk2, h4] at e1 e5
  rw [List.take_length, List.drop_of_length_le (by omega), List.append_nil] at e1
  rw [List.drop_length] at e5
  refine ⟨b1, b2, h1, e1, ?_⟩
  rw [is_empty_iff C b2 e2, e5, List.length_nil]

/-- Witness for C4: four bytes through an empty buffer of capacity 5 whose cursors stand
at offset 3, so the data wraps past the physical end. -/
theorem C4_round_trip_witness :
    (1 ≤ 5 ∧ Reachable 5 example_empty ∧ circular_buffer_is_empty example_empty = true
      ∧ [10, 11, 12, 13].length ≤ 5 ∧ [0, 0, 0, 0].length = [10, 11, 12, 13].length) ∧
    ∃ b1 b2, circular_buffer_insert_range example_empty [10, 11, 12, 13]
          = some (b1, [10, 11, 12, 13].length)
      ∧ circular_buffer_extract_range b1 [0, 0, 0, 0]
          = some (b2, [10, 11, 12, 13], [10, 11, 12, 13].length)
      ∧ circular_buffer_is_empty b2 = true :=
  ⟨⟨by decide, example_empty_reachable, by decide, by decide, by decide⟩,
    C4_round_trip 5 (by decide) example_empty example_empty_reachable (by decide)
      [10, 11, 12, 13] (by decide) [0, 0, 0, 0] (by decide)⟩

theorem insert_range_full (b : circular_buffer_t) (s : List byte)
    (h : s.length = 0 ∨ circular_buffer_is_full b = true) :
    circular_buffer_insert_range b s = some (b, 0) := by
  unfold circular_buffer_insert_range
  rcases h with h | h
  · simp [h]
  · simp [h]

theorem extract_range_empty (b : circular_buffer_t) (dst : List byte)
    (h : dst.length = 0 ∨ circular_buffer_is_empty b = true) :
    circular_buffer_extract_range b dst = some (b, dst, 0) := by
  unfold circular_buffer_extract_range
  rcases h with h | h
  · simp [h]
  · simp [h]

theorem is_empty_of_full (b : circular_buffer_t) (h : circular_buffer_is_full b = true) :
    circular_buffer_is_empty b = false := by
  unfold circular_buffer_is_full at h
  cases hb : circular_buffer_is_empty b
  · rfl
  · rw [hb] at h; simp at h

theorem is_full_of_empty (b : circular_buffer_t) (h : circular_buffer_is_empty b = true) :
    circular_buffer_is_full b = false := by
  unfold circular_buffer_is_full
  rw [h]; rfl

/-- C5 (fill): from every reachable empty state of a buffer of capacity `C ≥ 1`,
inserting exactly `C` bytes returns `C` and makes the buffer full and not empty; a
subsequent `insert_range` of any sequence, in particular of any non-empty one, returns 0
and leaves the whole buffer state (flag, cursors, storage) unchanged. -/
theorem C5_fill_then_insert (C : Nat) (hC : 1 ≤ C) (b : circular_buffer_t)
    (hr : Reachable C b) (he : circular_buffer_is_empty b = true) (s : List byte)
    (hs : s.length = C) (s2 : List byte) :
    ∃ b1, circular_buffer_insert_range b s = some (b1, C)
      ∧ circular_buffer_is_full b1 = true ∧ circular_buffer_is_empty b1 = false
      ∧ circular_buffer_insert_range b1 s2 = some (b1, 0) := by
  have hsz := Reachable_size C b hr
  have hb := Reachable_WF C hC b hr
  have hnil := contents_eq_nil C b hb he
  obtain ⟨b1, h1, h2, -, h4⟩ := insert_range_spec C hsz b hb s
  have hk : min s.length (C - (contents b).length) = C := by
    rw [hnil, List.length_nil]; omega
  rw [hk] at h1 h4
  have hfull : circular_buffer_is_full b1 = true := by
    rw [is_full_iff C b1 h2, h4, hnil, List.nil_append, List.length_take]; omega
  exact ⟨b1, h1, hfull, is_empty_of_full b1 hfull, insert_range_full b1 s2 (Or.inr hfull)⟩

/-- Witness for C5: five bytes into an empty buffer of capacity 5 with cursors at 3. -/
theorem C5_fill_then_insert_witness :
    (1 ≤ 5 ∧ Reachable 5 example_empty ∧ circular_buffer_is_empty example_empty = true
      ∧ [10, 11, 12, 13, 14].length = 5) ∧
    ∃ b1, circular_buffer_insert_range example_empty [10, 11, 12, 13, 14] = some (b1, 5)
      ∧ circular_buffer_is_full b1 = true ∧ circular_buffer_is_empty b1 = false
      ∧ circular_buffer_insert_range b1 [7] = some (b1, 0) :=
  ⟨⟨by decide, example_empty_reachable, by decide, by decide⟩,
    C5_fill_then_insert 5 (by decide) example_empty example_empty_reachable (by decide)
      [10, 11, 12, 13, 14] (by decide) [7]⟩

/-- C6 (drain): from every reachable full state of a buffer of capacity `C ≥ 1`,
`extract_range` into a destination of length `C` returns `C` and makes the buffer empty
and not full; a subsequent `extract_range` into any destination, in particular into any
non-empty one, returns 0. -/
theorem C6_drain_then_extract (C : Nat) (hC : 1 ≤ C) (b : circular_buffer_t)
    (hr : Reachable C b) (hf : circular_buffer_is_full b = true) (dst : List byte)
    (hd : dst.length = C) (dst2 : List byte) :
    ∃ b1 out, circular_buffer_extract_range b dst = some (b1, out, C)
      ∧ circular_buffer_is_empty b1 = true ∧ circular_buffer_is_full b1 = false
      ∧ circular_buffer_extract_range b1 dst2 = some (b1, dst2, 0) := by
  have hsz := Reachable_size C b hr
  have hb := Reachable_WF C hC b hr
  have hn := (is_full_iff C b hb).mp hf
  obtain ⟨b1, h1, h2, -, -, h5⟩ := extract_range_spec C hsz b hb dst
  have hk : min dst.length (contents b).length = C := by rw [hn, hd, Nat.min_self]
  rw [hk] at h1 h5
  have hemp : circular_buffer_is_empty b1 = true := by
    rw [is_empty_iff C b1 h2, h5, List.length_drop]; omega
  exact ⟨b1, _, h1, hemp, is_full_of_empty b1 hemp, extract_range_empty b1 dst2 (Or.inr hemp)⟩

/-- Witness for C6: draining a full buffer of capacity 5 whose cursors stand at 3. -/
theorem C6_drain_then_extract_witness :
    (1 ≤ 5 ∧ Reachable 5 example_full ∧ circular_buffer_is_full example_full = true
      ∧ [0, 0, 0, 0, 0].length = 5) ∧
    ∃ b1 out, circular_buffer_extract_range example_full [0, 0, 0, 0, 0] = some (b1, out, 5)
      ∧ circular_buffer_is_empty b1 = true ∧ circular_buffer_is_full b1 = false
      ∧ circular_buffer_extract_range b1 [0, 0] = some (b1, [0, 0], 0) :=
  ⟨⟨by decide, example_full_reachable, by decide, by decide⟩,
    C6_drain_then_extract 5 (by decide) example_full example_full_reachable (by decide)
      [0, 0, 0, 0, 0] (by decide) [0, 0]⟩

/-- C7 (capacity 0, failing input): on a buffer created by `construct(0)`, an
`insert_range` of one byte returns 0 but clears the `is_empty` flag, so afterwards
`is_empty()` is false and `is_full()` is true although no byte is stored. -/
theorem C7_capacity_zero_insert_clears_flag (fresh : Nat → byte) (v : byte) :
    circular_buffer_insert_range (circular_buffer_construct 0 fresh) [v]
      = some (⟨false, [], 0, 0, 0⟩, 0)
    ∧ circular_buffer_is_empty ⟨false, [], 0, 0, 0⟩ = false
    ∧ circular_buffer_is_full ⟨false, [], 0, 0, 0⟩ = true :=
  ⟨rfl, rfl, rfl⟩

/-- C8 (as stated, refuted): on the fresh buffer of capacity 0, `is_full()` is false
and `insert_value` nevertheless returns false. -/
theorem C8_insert_value_counterexample :
    Reachable 0 (circular_buffer_construct 0 (fun _ => 0))
    ∧ circular_buffer_is_full (circular_buffer_construct 0 (fun _ => 0)) = false
    ∧ circular_buffer_insert_value (circular_buffer_construct 0 (fun _ => 0)) 7
        = some (⟨false, [], 0, 0, 0⟩, false) :=
  ⟨Reachable.construct (by decide) (fun _ => 0), by decide, by decide⟩

/-- C8 (amended): in every state reachable from `construct(C)`, for any capacity `C`,
`insert_value(v)` returns false if and only if `is_full()` was true immediately before
the call or the capacity is 0; whenever it returns true it has stored `v` behind the
old contents. -/
theorem C8_insert_value_result (C : Nat) (b : circular_buffer_t) (hr : Reachable C b)
    (v : byte) :
    ∃ b' r, circular_buffer_insert_value b v = some (b', r)
      ∧ (r = false ↔ (circular_buffer_is_full b = true ∨ C = 0))
      ∧ (r = true → contents b' = contents b ++ [v]) := by
  rcases Nat.eq_zero_or_pos C with h0 | hpos
  · subst h0
    obtain ⟨e, rfl⟩ := Reachable_zero b hr
    obtain ⟨e', h1⟩ := insert_range_zero e [v]
    refine ⟨⟨e', [], 0, 0, 0⟩, false, ?_, by simp, by simp⟩
    unfold circular_buffer_insert_value
    rw [h1]
    rfl
  · have hb := Reachable_WF C hpos b hr
    obtain ⟨b', h1, -, -, h4⟩ := insert_value_spec C (Reachable_size C b hr) b hb v
    have hle := contents_length_le C b hb
    have hfull := is_full_iff C b hb
    refine ⟨b', _, h1, ?_, ?_⟩
    · rw [hfull, decide_eq_false_iff_not]
      constructor
      · intro h; left; omega
      · rintro (h | h) <;> omega
    · intro hr'
      rw [decide_eq_true_eq] at hr'
      rw [h4, if_pos hr']

/-- Witness for C8 (amended): a byte offered to a full buffer of capacity 5. -/
theorem C8_insert_value_result_witness :
    Reachable 5 example_full ∧
    ∃ b' r, circular_buffer_insert_value example_full 42 = some (b', r)
      ∧ (r = false ↔ (circular_buffer_is_full example_full = true ∨ 5 = 0))
      ∧ (r = true → contents b' = contents example_full ++ [42]) :=
  ⟨example_full_reachable, C8_insert_value_result 5 example_full example_full_reachable 42⟩

/-- C9 (extract_value): in every reachable non-empty state (capacity `C ≥ 1`),
`extract_value()` returns the byte at `head`, which is the first byte of the logical
contents, and removes exactly that byte; afterwards the buffer is empty exactly when it
held one byte. -/
theorem C9_extract_value_result (C : Nat) (hC : 1 ≤ C) (b : circular_buffer_t)
    (hr : Reachable C b) (hne : circular_buffer_is_empty b = false) (v : byte) :
    ∃ b' r, circular_buffer_extract_value b v = some (b', r)
      ∧ b.data_begin[b.head]? = some r
      ∧ contents b = r :: contents b'
      ∧ (circular_buffer_is_empty b' = true ↔ (contents b).length = 1) := by
  have hb := Reachable_WF C hC b hr
  obtain ⟨b', h1, h2, -, -, h5⟩ := extract_value_spec C (Reachable_size C b hr) b hb v
  have hhd := contents_head C b hb hne
  have hpos : (contents b).length ≠ 0 := by
    intro h0
    have := (is_empty_iff C b hb).mpr h0
    rw [hne] at this
    cases this
  cases hcs : contents b with
  | nil => rw [hcs] at hpos; exact absurd rfl hpos
  | cons c cs =>
    rw [hcs] at h1 h5 hhd
    simp only [List.headD_cons, List.drop_succ_cons, List.drop_zero] at h1 h5
    refine ⟨b', c, h1, ?_, by rw [h5], ?_⟩
    · rw [← hhd]; simp
    · rw [is_empty_iff C b' h2, h5, List.length_cons]
      omega

/-- Witness for C9: one byte taken from a wrapped buffer holding four. -/
theorem C9_extract_value_result_witness :
    (1 ≤ 5 ∧ Reachable 5 example_wrapped
      ∧ circular_buffer_is_empty example_wrapped = false) ∧
    ∃ b' r, circular_buffer_extract_value example_wrapped 0 = some (b', r)
      ∧ example_wrapped.data_begin[example_wrapped.head]? = some r
      ∧ contents example_wrapped = r :: contents b'
      ∧ (circular_buffer_is_empty b' = true ↔ (contents example_wrapped).length = 1) :=
  ⟨⟨by decide, example_wrapped_reachable, by decide⟩,
    C9_extract_value_result 5 (by decide) example_wrapped example_wrapped_reachable
      (by decide) 0⟩

/-- C10 (insert guard): for every buffer state and every source, if the source is empty
or `is_full()` is true then `insert_range` returns 0 and the buffer state (flag,
cursors and every storage byte) is exactly what it was. -/
theorem C10_insert_range_guard (b : circular_buffer_t) (s : List byte)
    (h : s = [] ∨ circular_buffer_is_full b = true) :
    circular_buffer_insert_range b s = some (b, 0) := by
  refine insert_range_full b s ?_
  rcases h with h | h
  · left; rw [h]; rfl
  · right; exact h

/-- Witness for C10: three bytes offered to a full buffer. -/
theorem C10_insert_range_guard_witness :
    (([1, 2, 3] : List byte) = [] ∨ circular_buffer_is_full example_full = true) ∧
    circular_buffer_insert_range example_full [1, 2, 3] = some (example_full, 0) :=
  ⟨Or.inr (by decide), C10_insert_range_guard example_full [1, 2, 3] (Or.inr (by decide))⟩

/-! ## Guards, no-op calls and the frame of `extract_range` -/

/-- C11 (extract guard): for every buffer state and every destination, if the
destination has zero length or `is_empty()` is true then `extract_range` returns 0, the
buffer state (flag, cursors, storage) is exactly what it was and the destination is
returned with no byte written. -/
theorem C11_extract_range_guard (b : circular_buffer_t) (dst : List byte)
    (h : dst = [] ∨ circular_buffer_is_empty b = true) :
    circular_buffer_extract_range b dst = some (b, dst, 0) := by
  refine extract_range_empty b dst ?_
  rcases h with h | h
  · left; rw [h]; rfl
  · right; exact h

/-- Witness for C11: a three-byte destination offered to an empty buffer. -/
theorem C11_extract_range_guard_witness :
    (([9, 9, 9] : List byte) = [] ∨ circular_buffer_is_empty example_empty = true) ∧
    circular_buffer_extract_range example_empty [9, 9, 9] = some (example_empty, [9, 9, 9], 0) :=
  ⟨Or.inr (by decide), C11_extract_range_guard example_empty [9, 9, 9] (Or.inr (by decide))⟩

theorem insert_range_zero_count (C : Nat) (hC : 1 ≤ C) (b b' : circular_buffer_t)
    (hr : Reachable C b) (s : List byte)
    (h : circular_buffer_insert_range b s = some (b', 0)) : b' = b := by
  have hb := Reachable_WF C hC b hr
  obtain ⟨b1, h1, -⟩ := insert_range_spec C (Reachable_size C b hr) b hb s
  have hle := contents_length_le C b hb
  rw [h1] at h
  have hk : min s.length (C - (contents b).length) = 0 := by
    have := congrArg (fun r => r.map Prod.snd) h
    simpa using this
  have hg : s.length = 0 ∨ circular_buffer_is_full b = true := by
    rw [is_full_iff C b hb]
    omega
  have h2 := insert_range_full b s hg
  rw [h1] at h2
  have h3 := h.symm.trans h2
  simp only [Option.some.injEq, Prod.mk.injEq, and_true] at h3
  exact h3

theorem extract_range_zero_count (C : Nat) (hC : 1 ≤ C) (b b' : circular_buffer_t)
    (hr : Reachable C b) (dst out : List byte)
    (h : circular_buffer_extract_range b dst = some (b', out, 0)) : b' = b ∧ out = dst := by
  have hb := Reachable_WF C hC b hr
  obtain ⟨b1, h1, -⟩ := extract_range_spec C (Reachable_size C b hr) b hb dst
  rw [h1] at h
  have hk : min dst.length (contents b).length = 0 := by
    have := congrArg (fun r => r.map (fun x => x.2.2)) h
    simpa using this
  have hg : dst.length = 0 ∨ circular_buffer_is_empty b = true := by
    rw [is_empty_iff C b hb]
    omega
  have h2 := extract_range_empty b dst hg
  rw [h1] at h2
  have h3 := h.symm.trans h2
  simp only [Option.some.injEq, Prod.mk.injEq, and_true] at h3
  exact h3

/-- C12 (failing input): on the buffer created by `construct(0)`, `insert_range` of a
one-byte source returns 0 and yet changes the `is_empty` flag from true to false; on
the state so reached, `extract_range` into a one-byte destination returns 0 and changes
the flag back to true.  Neither call is a no-op although neither transfers a byte. -/
theorem C12_zero_transfer_changes_flag (fresh : Nat → byte) (v : byte) :
    (circular_buffer_construct 0 fresh).is_empty = true
    ∧ circular_buffer_insert_range (circular_buffer_construct 0 fresh) [v]
        = some (⟨false, [], 0, 0, 0⟩, 0)
    ∧ circular_buffer_extract_range ⟨false, [], 0, 0, 0⟩ [v]
        = some (⟨true, [], 0, 0, 0⟩, [v], 0) :=
  ⟨rfl, rfl, rfl⟩

theorem memcpy_frame (dest : List byte) (d : Nat) (src : List byte) (s n : Nat)
    (out : List byte) (h : memcpy dest d src s n = some out) :
    d + n ≤ dest.length ∧ out.length = dest.length ∧ out.take d = dest.take d
      ∧ out.drop (d + n) = dest.drop (d + n) := by
  unfold memcpy at h
  split at h
  · rename_i hb
    obtain ⟨hb1, hb2⟩ := hb
    cases h
    have hX : ((src.drop s).take n).length = n := by
      simp only [List.length_take, List.length_drop]; omega
    have h1 := splice_length dest ((src.drop s).take n) d (by omega)
    have h2 := splice_take_le dest ((src.drop s).take n) d d (by omega) (Nat.le_refl _)
    have h3 := splice_drop_ge dest ((src.drop s).take n) d (d + n) (by omega) (by omega)
    rw [hX] at h1 h2 h3
    exact ⟨hb1, h1, h2, h3⟩
  · cases h

theorem drop_eq_of_drop_eq {α : Type} (l1 l2 : List α) (a k : Nat) (hak : a ≤ k)
    (h : l1.drop a = l2.drop a) : l1.drop k = l2.drop k := by
  have e : k = a + (k - a) := by omega
  rw [e, ← List.drop_drop, ← List.drop_drop, h]

theorem extract_range_second_frame (b b' : circular_buffer_t) (out out' : List byte)
    (i k : Nat) (h : extract_range_second b out i = some (b', out', k)) :
    i ≤ k ∧ k ≤ out.length ∧ out'.length = out.length ∧ out'.drop k = out.drop k := by
  unfold extract_range_second at h
  simp only [] at h
  split at h
  · cases h
  · rename_i o hm
    obtain ⟨f1, f2, -, f4⟩ := memcpy_frame _ _ _ _ _ _ hm
    simp only [Option.some.injEq, Prod.mk.injEq] at h
    obtain ⟨-, rfl, rfl⟩ := h
    exact ⟨Nat.le_add_right _ _, f1, f2, f4⟩

theorem extract_range_frame (b b' : circular_buffer_t) (dst out : List byte) (k : Nat)
    (h : circular_buffer_extract_range b dst = some (b', out, k)) :
    k ≤ dst.length ∧ out.length = dst.length ∧ out.drop k = dst.drop k := by
  unfold circular_buffer_extract_range at h
  simp only [] at h
  split at h
  · simp only [Option.some.injEq, Prod.mk.injEq] at h
    obtain ⟨-, rfl, rfl⟩ := h
    exact ⟨Nat.zero_le _, rfl, rfl⟩
  · split at h
    · split at h
      · cases h
      · rename_i o hm
        obtain ⟨f1, f2, -, f4⟩ := memcpy_frame _ _ _ _ _ _ hm
        split at h
        · simp only [Option.some.injEq, Prod.mk.injEq] at h
          obtain ⟨-, rfl, rfl⟩ := h
          exact ⟨f1, f2, f4⟩
        · obtain ⟨g1, g2, g3, g4⟩ := extract_range_second_frame _ _ _ _ _ _ h
          refine ⟨by omega, by omega, ?_⟩
          rw [g4]
          exact drop_eq_of_drop_eq _ _ _ _ g1 f4
    · obtain ⟨-, g2, g3, g4⟩ := extract_range_second_frame _ _ _ _ _ _ h
      exact ⟨g2, g3, g4⟩

/-- C13 (frame of extract_range): for every buffer state and every destination, if
`extract_range` returns `k` then `k` is at most the destination length, the destination
keeps its length (nothing outside the range is written) and every destination byte at
a position `i ≥ k` keeps the value it had before the call. -/
theorem C13_extract_range_frame (b b' : circular_buffer_t) (dst out : List byte) (k : Nat)
    (h : circular_buffer_extract_range b dst = some (b', out, k)) :
    k ≤ dst.length ∧ out.length = dst.length ∧ ∀ i, k ≤ i → out[i]? = dst[i]? := by
  obtain ⟨h1, h2, h3⟩ := extract_range_frame b b' dst out k h
  refine ⟨h1, h2, fun i hi => ?_⟩
  have e : i = k + (i - k) := by omega
  rw [e, ← List.getElem?_drop, ← List.getElem?_drop, h3]

/-- Witness for C13: a six-byte destination offered to a wrapped buffer holding four
bytes; positions 4 and 5 keep the byte 97. -/
theorem C13_extract_range_frame_witness :
    circular_buffer_extract_range example_wrapped [97, 97, 97, 97, 97, 97]
        = some (⟨true, [6, 7, 3, 4, 5], 5, 2, 2⟩, [4, 5, 6, 7, 97, 97], 4)
    ∧ (4 ≤ [97, 97, 97, 97, 97, 97].length
        ∧ [4, 5, 6, 7, 97, 97].length = [97, 97, 97, 97, 97, 97].length
        ∧ ∀ i, 4 ≤ i →
            ([4, 5, 6, 7, 97, 97] : List byte)[i]? = ([97, 97, 97, 97, 97, 97] : List byte)[i]?) :=
  ⟨by decide,
    C13_extract_range_frame example_wrapped ⟨true, [6, 7, 3, 4, 5], 5, 2, 2⟩
      [97, 97, 97, 97, 97, 97] [4, 5, 6, 7, 97, 97] 4 (by decide)⟩

theorem main_passes (fresh : Nat → byte) : main fresh = some true := by
  rfl

/-! ## Construction, cursor invariant and the empty flag -/

/-- C14 (construct): for every capacity `C`, in particular every `C ≥ 1`, the buffer
produced by `construct(C)` has `head = tail = 0`, `is_empty()` true and `is_full()`
false. -/
theorem C14_construct_state (C : Nat) (fresh : Nat → byte) :
    (circular_buffer_construct C fresh).head = 0
    ∧ (circular_buffer_construct C fresh).tail = 0
    ∧ circular_buffer_is_empty (circular_buffer_construct C fresh) = true
    ∧ circular_buffer_is_full (circular_buffer_construct C fresh) = false :=
  ⟨rfl, rfl, rfl, rfl⟩

/-- C15 (cursor invariant): for every capacity `C ≥ 1`, in every state reachable from
`construct(C)` by `insert_range`, `insert_value`, `extract_range` and `extract_value`
calls, `head < C` and `tail < C` (both cursors are offsets, so they are at least 0), and
`is_empty` implies `head = tail`. -/
theorem C15_cursor_invariant (C : Nat) (hC : 1 ≤ C) (b : circular_buffer_t)
    (hr : Reachable C b) :
    b.head < C ∧ b.tail < C ∧ (circular_buffer_is_empty b = true → b.head = b.tail) := by
  have hb := Reachable_WF C hC b hr
  exact ⟨hb.head, hb.tail, hb.empty⟩

/-- Witness for C15: the wrapped buffer of capacity 5. -/
theorem C15_cursor_invariant_witness :
    (1 ≤ 5 ∧ Reachable 5 example_wrapped) ∧
    (example_wrapped.head < 5 ∧ example_wrapped.tail < 5
      ∧ (circular_buffer_is_empty example_wrapped = true
          → example_wrapped.head = example_wrapped.tail)) :=
  ⟨⟨by decide, example_wrapped_reachable⟩,
    C15_cursor_invariant 5 (by decide) example_wrapped example_wrapped_reachable⟩

theorem ReachableCount_reachable (C : Nat) (b : circular_buffer_t) (a d : Nat)
    (hr : ReachableCount C b a d) : Reachable C b := by
  induction hr with
  | construct hC fresh => exact Reachable.construct hC fresh
  | insert_range s _ hstep ih => exact Reachable.insert_range s ih hstep
  | insert_value v _ hstep ih => exact Reachable.insert_value v ih hstep
  | extract_range dst _ hstep ih => exact Reachable.extract_range dst ih hstep
  | extract_value v _ hstep _ ih => exact Reachable.extract_value v ih hstep

theorem extract_value_inner (b b' : circular_buffer_t) (v r : byte)
    (h : circular_buffer_extract_value b v = some (b', r)) :
    ∃ out k, circular_buffer_extract_range b [v] = some (b', out, k) := by
  unfold circular_buffer_extract_value at h
  split at h
  · cases h
  · rename_i b1 out k hm
    split at h
    · cases h
    · simp only [Option.some.injEq, Prod.mk.injEq] at h
      obtain ⟨rfl, -⟩ := h
      exact ⟨_, k, hm⟩

theorem Reachable_count (C : Nat) (b : circular_buffer_t) (hr : Reachable C b) :
    ∃ a d, ReachableCount C b a d := by
  induction hr with
  | construct hC fresh => exact ⟨0, 0, ReachableCount.construct hC fresh⟩
  | insert_range s _ hstep ih =>
    obtain ⟨a, d, h⟩ := ih
    exact ⟨_, _, ReachableCount.insert_range s h hstep⟩
  | insert_value v _ hstep ih =>
    obtain ⟨a, d, h⟩ := ih
    exact ⟨_, _, ReachableCount.insert_value v h hstep⟩
  | extract_range dst _ hstep ih =>
    obtain ⟨a, d, h⟩ := ih
    exact ⟨_, _, ReachableCount.extract_range dst h hstep⟩
  | extract_value v _ hstep ih =>
    obtain ⟨a, d, h⟩ := ih
    obtain ⟨out, k, hk⟩ := extract_value_inner _ _ _ _ hstep
    exact ⟨_, _, ReachableCount.extract_value v h hstep hk⟩

theorem ReachableCount_balance (C : Nat) (hC : 1 ≤ C) (b : circular_buffer_t) (a d : Nat)
    (hr : ReachableCount C b a d) : (contents b).length + d = a := by
  induction hr with
  | construct hsz fresh => rw [contents_construct]; rfl
  | insert_range s hr' hstep ih =>
    have hr0 := ReachableCount_reachable C _ _ _ hr'
    have hb := Reachable_WF C hC _ hr0
    obtain ⟨b1, h1, -, -, h4⟩ := insert_range_spec C (Reachable_size C _ hr0) _ hb s
    rw [h1] at hstep
    simp only [Option.some.injEq, Prod.mk.injEq] at hstep
    obtain ⟨rfl, rfl⟩ := hstep
    rw [h4, List.length_append, List.length_take]
    omega
  | insert_value v hr' hstep ih =>
    have hr0 := ReachableCount_reachable C _ _ _ hr'
    have hb := Reachable_WF C hC _ hr0
    obtain ⟨b1, h1, -, -, h4⟩ := insert_value_spec C (Reachable_size C _ hr0) _ hb v
    rw [h1] at hstep
    simp only [Option.some.injEq, Prod.mk.injEq] at hstep
    obtain ⟨rfl, rfl⟩ := hstep
    rw [h4, List.length_append]
    (split <;> simp_all)
    omega
  | extract_range dst hr' hstep ih =>
    have hr0 := ReachableCount_reachable C _ _ _ hr'
    have hb := Reachable_WF C hC _ hr0
    obtain ⟨b1, h1, -, -, -, h5⟩ := extract_range_spec C (Reachable_size C _ hr0) _ hb dst
    rw [h1] at hstep
    simp only [Option.some.injEq, Prod.mk.injEq] at hstep
    obtain ⟨rfl, -, rfl⟩ := hstep
    rw [h5, List.length_drop]
    omega
  | extract_value v hr' _ hinner ih =>
    have hr0 := ReachableCount_reachable C _ _ _ hr'
    have hb := Reachable_WF C hC _ hr0
    obtain ⟨b1, h1, -, -, -, h5⟩ := extract_range_spec C (Reachable_size C _ hr0) _ hb [v]
    rw [h1] at hinner
    simp only [Option.some.injEq, Prod.mk.injEq] at hinner
    obtain ⟨rfl, -, rfl⟩ := hinner
    rw [h5, List.length_drop]
    omega

/-- C16 (the empty flag is faithful): for every capacity `C ≥ 1`, in every state reached
from `construct(C)` with `a` bytes accepted by inserts and `d` bytes delivered by
extracts, `n = a - d` satisfies `0 ≤ n ≤ C` (in particular `d ≤ a`), `is_empty()` is
true iff `n = 0`, `is_full()` is true iff `n = C`, and the two are never both true. -/
theorem C16_flag_faithful (C : Nat) (hC : 1 ≤ C) (b : circular_buffer_t) (a d : Nat)
    (hr : ReachableCount C b a d) :
    d ≤ a ∧ a - d ≤ C
    ∧ (circular_buffer_is_empty b = true ↔ a - d = 0)
    ∧ (circular_buffer_is_full b = true ↔ a - d = C)
    ∧ ¬ (circular_buffer_is_empty b = true ∧ circular_buffer_is_full b = true) := by
  have hbal := ReachableCount_balance C hC b a d hr
  have hb := Reachable_WF C hC b (ReachableCount_reachable C b a d hr)
  have hle := contents_length_le C b hb
  have he := is_empty_iff C b hb
  have hf := is_full_iff C b hb
  have hn : a - d = (contents b).length := by omega
  refine ⟨by omega, by omega, ?_, ?_, ?_⟩
  · rw [he, hn]
  · rw [hf, hn]
  · rw [he, hf]
    omega

theorem example_full_count : ReachableCount 5 example_full 8 3 :=
  ReachableCount.insert_range [8, 9]
    (ReachableCount.insert_range [4, 5, 6, 7]
      (ReachableCount.extract_range [9, 9, 9]
        (ReachableCount.insert_range [1, 2, 3]
          (ReachableCount.construct (by decide) (fun _ => 0))
          (by decide : circular_buffer_insert_range (circular_buffer_construct 5 (fun _ => 0))
              [1, 2, 3] = some (⟨false, [1, 2, 3, 0, 0], 5, 0, 3⟩, 3)))
        (by decide : circular_buffer_extract_range ⟨false, [1, 2, 3, 0, 0], 5, 0, 3⟩ [9, 9, 9]
            = some (example_empty, [1, 2, 3], 3)))
      (by decide : circular_buffer_insert_range example_empty [4, 5, 6, 7]
          = some (example_wrapped, 4)))
    (by decide : circular_buffer_insert_range example_wrapped [8, 9]
        = some (example_full, 1))

/-- Witness for C16: the full buffer of capacity 5, reached with 8 bytes accepted and 3
delivered. -/
theorem C16_flag_faithful_witness :
    (1 ≤ 5 ∧ ReachableCount 5 example_full 8 3) ∧
    (3 ≤ 8 ∧ 8 - 3 ≤ 5
      ∧ (circular_buffer_is_empty example_full = true ↔ 8 - 3 = 0)
      ∧ (circular_buffer_is_full example_full = true ↔ 8 - 3 = 5)
      ∧ ¬ (circular_buffer_is_empty example_full = true
            ∧ circular_buffer_is_full example_full = true)) :=
  ⟨⟨by decide, example_full_count⟩,
    C16_flag_faithful 5 (by decide) example_full 8 3 example_full_count⟩

theorem example_tail_zero_reachable : Reachable 5 example_tail_zero :=
  Reachable.extract_range [9, 9, 9]
    (Reachable.insert_range [1, 2, 3, 4, 5] (Reachable.construct (by decide) (fun _ => 0))
      (by decide : circular_buffer_insert_range (circular_buffer_construct 5 (fun _ => 0))
          [1, 2, 3, 4, 5] = some (⟨false, [1, 2, 3, 4, 5], 5, 0, 0⟩, 5)))
    (by decide : circular_buffer_extract_range ⟨false, [1, 2, 3, 4, 5], 5, 0, 0⟩ [9, 9, 9]
        = some (example_tail_zero, [1, 2, 3], 3))

/-- C17 (drain detection): in every reachable state of a buffer of capacity `C ≥ 1`
storing `n` bytes, in particular every non-empty one, and for every destination, in
particular every non-empty one, `extract_range` returns a count `k` such that afterwards
`is_empty` is true if and only if `k = n`; a call that removes fewer than `n` bytes
leaves `is_empty` false.  The drain may complete in either of the two copies. -/
theorem C17_drain_sets_empty (C : Nat) (hC : 1 ≤ C) (b : circular_buffer_t)
    (hr : Reachable C b) (dst : List byte) :
    ∃ b' out k, circular_buffer_extract_range b dst = some (b', out, k)
      ∧ (circular_buffer_is_empty b' = true ↔ k = (contents b).length)
      ∧ (k < (contents b).length → circular_buffer_is_empty b' = false) := by
  have hb := Reachable_WF C hC b hr
  obtain ⟨b', h1, h2, -, -, h5⟩ := extract_range_spec C (Reachable_size C b hr) b hb dst
  have he := is_empty_iff C b' h2
  rw [h5, List.length_drop] at he
  refine ⟨b', _, _, h1, ?_, fun hlt => ?_⟩
  · rw [he]; omega
  · cases hv : circular_buffer_is_empty b'
    · rfl
    · have := he.mp hv
      omega

/-- Witness for C17: two bytes stored at the physical end with `tail` at offset 0; the
first copy alone drains the buffer, `head` wraps to 0 and meets `tail`. -/
theorem C17_drain_sets_empty_witness :
    (1 ≤ 5 ∧ Reachable 5 example_tail_zero) ∧
    ∃ b' out k, circular_buffer_extract_range example_tail_zero [0, 0, 0] = some (b', out, k)
      ∧ (circular_buffer_is_empty b' = true ↔ k = (contents example_tail_zero).length)
      ∧ (k < (contents example_tail_zero).length → circular_buffer_is_empty b' = false) :=
  ⟨⟨by decide, example_tail_zero_reachable⟩,
    C17_drain_sets_empty 5 (by decide) example_tail_zero example_tail_zero_reachable [0, 0, 0]⟩

theorem example_tail_zero_drain :
    circular_buffer_extract_range example_tail_zero [0, 0, 0]
      = some (⟨true, [1, 2, 3, 4, 5], 5, 0, 0⟩, [4, 5, 0], 2) := by
  decide

/-- C19 (extract_value on an empty buffer): for every buffer state with `is_empty()`
true, `extract_value()` leaves the buffer state (flag, cursors, storage) unchanged and
returns the indeterminate value its local variable held before the call, whatever the
buffer contains. -/
theorem C19_extract_value_empty (b : circular_buffer_t) (v : byte)
    (h : circular_buffer_is_empty b = true) :
    circular_buffer_extract_value b v = some (b, v) := by
  unfold circular_buffer_extract_value
  rw [extract_range_empty b [v] (Or.inr h)]

/-- Witness for C19: the empty buffer whose storage holds the stale bytes 1, 2, 3. -/
theorem C19_extract_value_empty_witness :
    circular_buffer_is_empty example_empty = true ∧
    circular_buffer_extract_value example_empty 200 = some (example_empty, 200) :=
  ⟨by decide, C19_extract_value_empty example_empty 200 (by decide)⟩

/-! ## Bounds of the two-segment copies -/

theorem MIN_sub (a b c d : Nat) (hb : b ≤ a) (hd : d ≤ c) :
    MIN ((a : Int) - b) ((c : Int) - d) = ((min (a - b) (c - d) : Nat) : Int) := by
  unfold MIN
  split <;> omega

theorem to_size_t_natCast (m : Nat) (h : m < 2 ^ SIZE_WIDTH) : to_size_t (m : Int) = m := by
  unfold to_size_t
  have h5 : (m : Int) < ((2 ^ SIZE_WIDTH : Nat) : Int) := Int.ofNat_lt.mpr h
  rw [Int.emod_eq_of_lt (Int.ofNat_nonneg m) h5]
  exact Int.toNat_ofNat m

theorem insert_range_second_log_eq (e : Bool) (D : List byte) (E h t : Nat) (s : List byte)
    (i : Nat) (hth : t ≤ h) (hh : h ≤ D.length) (hi : i ≤ s.length)
    (hsz : h < 2 ^ SIZE_WIDTH) :
    insert_range_second_log ⟨e, D, E, h, t⟩ s i =
      some ((⟨e, D.take t ++ ((s.drop i).take (min (h - t) (s.length - i))
              ++ D.drop (t + min (h - t) (s.length - i))), E, h,
              t + min (h - t) (s.length - i)⟩, i + min (h - t) (s.length - i)),
            [(t, ((min (h - t) (s.length - i) : Nat) : Int))]) := by
  unfold insert_range_second_log
  simp only []
  rw [MIN_sub h t s.length i hth hi, to_size_t_natCast _ (by omega),
    memcpy_eq _ _ _ _ _ (by omega) (by omega)]

theorem extract_range_second_log_eq (e : Bool) (D : List byte) (E h t : Nat)
    (out : List byte) (i : Nat) (hht : h ≤ t) (ht : t ≤ D.length) (hi : i ≤ out.length)
    (hsz : t < 2 ^ SIZE_WIDTH) :
    extract_range_second_log ⟨e, D, E, h, t⟩ out i =
      some ((if h + min (t - h) (out.length - i) = t
              then ⟨true, D, E, h + min (t - h) (out.length - i), t⟩
              else ⟨e, D, E, h + min (t - h) (out.length - i), t⟩,
            out.take i ++ ((D.drop h).take (min (t - h) (out.length - i))
              ++ out.drop (i + min (t - h) (out.length - i))),
            i + min (t - h) (out.length - i)),
            [(h, ((min (t - h) (out.length - i) : Nat) : Int))]) := by
  unfold extract_range_second_log
  simp only []
  rw [MIN_sub t h out.length i hht hi, to_size_t_natCast _ (by omega),
    memcpy_eq _ _ _ _ _ (by omega) (by omega)]

theorem free_slot_of_ge_tail (e : Bool) (D : List byte) (E h t i : Nat) (hth : h ≤ t)
    (hnf : ¬ (e = false ∧ h = t)) (he : e = true → h = t) (hi : t ≤ i) (hiE : i < E) :
    free_slot ⟨e, D, E, h, t⟩ i := by
  unfold free_slot occupied
  refine ⟨hiE, ?_⟩
  cases e
  · have hlt : h < t := by
      rcases Nat.lt_or_ge h t with h1 | h1
      · exact h1
      · exact absurd ⟨rfl, Nat.le_antisymm hth h1⟩ hnf
    simp only [Bool.false_eq_true, if_false, hlt, if_true]
    omega
  · simp

theorem free_slot_of_lt_head (e : Bool) (D : List byte) (E h t i : Nat) (hth : h ≤ t)
    (hnf : ¬ (e = false ∧ h = t)) (he : e = true → h = t) (hi : i < h) (hE : h ≤ E) :
    free_slot ⟨e, D, E, h, t⟩ i := by
  unfold free_slot occupied
  refine ⟨by show i < E; omega, ?_⟩
  cases e
  · have hlt : h < t := by
      rcases Nat.lt_or_ge h t with h1 | h1
      · exact h1
      · exact absurd ⟨rfl, Nat.le_antisymm hth h1⟩ hnf
    simp only [Bool.false_eq_true, if_false, hlt, if_true]
    omega
  · simp

theorem free_slot_between (D : List byte) (E h t i : Nat) (hth : t < h) (hE : h ≤ E)
    (hi : t ≤ i) (hih : i < h) : free_slot ⟨false, D, E, h, t⟩ i := by
  unfold free_slot occupied
  refine ⟨by show i < E; omega, ?_⟩
  have hnlt : ¬ (h < t) := by omega
  simp only [Bool.false_eq_true, if_false, hnlt]
  omega

theorem insert_range_log_spec (C : Nat) (hC : C < 2 ^ SIZE_WIDTH) (b : circular_buffer_t)
    (hb : WF C b) (s : List byte) :
    ∃ r log, circular_buffer_insert_range_log b s = some (r, log)
      ∧ ∀ c ∈ log, 0 ≤ c.2 ∧ (c.1 : Int) + c.2 ≤ C
          ∧ ∀ i : Nat, c.1 ≤ i → (i : Int) < c.1 + c.2 → free_slot b i := by
  obtain ⟨hl, hE, hh, ht, he⟩ := hb
  rcases b with ⟨e, D, E, h, t⟩
  simp only at hl hE hh ht he
  subst hE
  by_cases hs : s.length = 0
  · refine ⟨(⟨e, D, E, h, t⟩, 0), [], ?_, by simp⟩
    simp [circular_buffer_insert_range_log, hs]
  by_cases hfull : e = false ∧ h = t
  · obtain ⟨rfl, rfl⟩ := hfull
    refine ⟨(⟨false, D, E, h, h⟩, 0), [], ?_, by simp⟩
    simp [circular_buffer_insert_range_log, circular_buffer_is_full, circular_buffer_is_empty]
  have hnf : circular_buffer_is_full ⟨e, D, E, h, t⟩ = false := by
    cases e <;> simp_all [circular_buffer_is_full, circular_buffer_is_empty]
  have hs' : ¬ (0 ≥ s.length) := by omega
  by_cases hth : h ≤ t
  · have hfree1 := fun i => free_slot_of_ge_tail e D E h t i hth hfull he
    have hfree2 := fun i => free_slot_of_lt_head e D E h t i hth hfull he
    have hm := MIN_sub E t s.length 0 (Nat.le_of_lt ht) (Nat.zero_le _)
    simp only [Nat.sub_zero] at hm
    unfold circular_buffer_insert_range_log
    simp only [hnf, hs', false_or, Bool.false_eq_true, if_false, ge_iff_le, hth, if_true, hm,
      Nat.zero_add]
    rw [to_size_t_natCast _ (by omega), memcpy_eq _ _ _ _ _ (by omega) (by omega)]
    simp only []
    by_cases hfit : s.length ≤ E - t
    · have hc : min (E - t) s.length = s.length := by omega
      simp only [hc, if_true]
      refine ⟨_, _, rfl, ?_⟩
      intro c hmem
      simp only [List.mem_singleton] at hmem
      subst hmem
      refine ⟨by omega, by simp only []; omega, fun i h1 h2 => hfree1 i h1 ?_⟩
      simp only [] at h2
      omega
    · have hc : min (E - t) s.length = E - t := by omega
      have hne : ¬ (E - t = s.length) := by omega
      have hw : t + (E - t) = E := by omega
      simp only [hc, hne, if_false, hw, if_true]
      rw [insert_range_second_log_eq false _ E h 0 s (E - t) (Nat.zero_le _)
        (by simp only [List.length_append, List.length_take, List.length_drop]; omega)
        (by omega) (by omega)]
      simp only []
      refine ⟨_, _, rfl, ?_⟩
      intro c hmem
      simp only [List.mem_cons, List.mem_singleton, List.not_mem_nil, or_false] at hmem
      rcases hmem with rfl | rfl
      · refine ⟨by omega, by simp only []; omega, fun i h1 h2 => hfree1 i h1 ?_⟩
        simp only [] at h2
        omega
      · refine ⟨by omega, by simp only []; omega, fun i h1 h2 => hfree2 i ?_ (by omega)⟩
        simp only [] at h2
        omega
  · have hlt : t < h := by omega
    have hef : e = false := by
      cases e
      · rfl
      · exact absurd (he rfl) (by omega)
    subst hef
    have hev : circular_buffer_insert_range_log ⟨false, D, E, h, t⟩ s
        = insert_range_second_log ⟨false, D, E, h, t⟩ s 0 := by
      unfold circular_buffer_insert_range_log
      simp only [hnf, hs', false_or, Bool.false_eq_true, if_false, ge_iff_le, hth]
    rw [hev, insert_range_second_log_eq false D E h t s 0 (by omega) (by omega) (Nat.zero_le _)
      (by omega)]
    refine ⟨_, _, rfl, ?_⟩
    intro c hmem
    simp only [List.mem_singleton] at hmem
    subst hmem
    refine ⟨by omega, by simp only []; omega,
      fun i h1 h2 => free_slot_between D E h t i hlt (by omega) h1 ?_⟩
    simp only [] at h2
    omega

theorem occupied_of_ge_head (D : List byte) (E h t i : Nat) (hth : t ≤ h) (hi : h ≤ i)
    (hiE : i < E) : occupied ⟨false, D, E, h, t⟩ i := by
  unfold occupied
  have hnlt : ¬ (h < t) := by omega
  simp only [Bool.false_eq_true, if_false, hnlt]
  exact Or.inl ⟨hi, hiE⟩

theorem occupied_of_lt_tail (D : List byte) (E h t i : Nat) (hth : t ≤ h) (hi : i < t) :
    occupied ⟨false, D, E, h, t⟩ i := by
  unfold occupied
  have hnlt : ¬ (h < t) := by omega
  simp only [Bool.false_eq_true, if_false, hnlt]
  exact Or.inr hi

theorem occupied_between (D : List byte) (E h t i : Nat) (hth : h < t) (hi : h ≤ i)
    (hit : i < t) : occupied ⟨false, D, E, h, t⟩ i := by
  unfold occupied
  simp only [Bool.false_eq_true, if_false, hth, if_true]
  exact ⟨hi, hit⟩

theorem extract_range_log_spec (C : Nat) (hC : C < 2 ^ SIZE_WIDTH) (b : circular_buffer_t)
    (hb : WF C b) (dst : List byte) :
    ∃ r log, circular_buffer_extract_range_log b dst = some (r, log)
      ∧ ∀ c ∈ log, 0 ≤ c.2 ∧ (c.1 : Int) + c.2 ≤ C
          ∧ ∀ i : Nat, c.1 ≤ i → (i : Int) < c.1 + c.2 → occupied b i := by
  obtain ⟨hl, hE, hh, ht, he⟩ := hb
  rcases b with ⟨e, D, E, h, t⟩
  simp only at hl hE hh ht he
  subst hE
  by_cases hs : dst.length = 0
  · refine ⟨(⟨e, D, E, h, t⟩, dst, 0), [], ?_, by simp⟩
    simp [circular_buffer_extract_range_log, hs]
  cases e
  swap
  · refine ⟨(⟨true, D, E, h, t⟩, dst, 0), [], ?_, by simp⟩
    simp [circular_buffer_extract_range_log, circular_buffer_is_empty]
  have hd' : ¬ (0 ≥ dst.length) := by omega
  by_cases hth : t ≤ h
  · have hocc1 := fun i => occupied_of_ge_head D E h t i hth
    have hocc2 := fun i => occupied_of_lt_tail D E h t i hth
    have hm := MIN_sub E h dst.length 0 (Nat.le_of_lt hh) (Nat.zero_le _)
    simp only [Nat.sub_zero] at hm
    unfold circular_buffer_extract_range_log
    simp only [hd', circular_buffer_is_empty, Bool.false_eq_true, or_self, if_false, ge_iff_le,
      hth, if_true, hm, Nat.zero_add]
    rw [to_size_t_natCast _ (by omega), memcpy_eq _ _ _ _ _ (by omega) (by omega)]
    simp only []
    by_cases hfit : dst.length ≤ E - h
    · have hc : min (E - h) dst.length = dst.length := by omega
      simp only [hc, if_true]
      refine ⟨_, _, rfl, ?_⟩
      intro c hmem
      simp only [List.mem_singleton] at hmem
      subst hmem
      refine ⟨by omega, by simp only []; omega, fun i h1 h2 => hocc1 i h1 ?_⟩
      simp only [] at h2
      omega
    · have hc : min (E - h) dst.length = E - h := by omega
      have hne : ¬ (E - h = dst.length) := by omega
      have hw : h + (E - h) = E := by omega
      simp only [hc, hne, if_false, hw, if_true, Nat.zero_add, List.take_zero, List.nil_append]
      have hsec : ∀ e1, ∃ r,
          extract_range_second_log ⟨e1, D, E, 0, t⟩
              (List.take (E - h) (List.drop h D) ++ List.drop (E - h) dst) (E - h)
            = some (r, [(0, ((min (t - 0) (dst.length - (E - h)) : Nat) : Int))]) := by
        intro e1
        have hlen : (List.take (E - h) (List.drop h D) ++ List.drop (E - h) dst).length
            = dst.length := by
          simp only [List.length_append, List.length_take, List.length_drop]; omega
        rw [extract_range_second_log_eq e1 D E 0 t _ (E - h) (Nat.zero_le _) (by omega)
          (by omega) (by omega), hlen]
        exact ⟨_, rfl⟩
      have hlog : ∀ c ∈ [(h, ((E - h : Nat) : Int)),
            (0, ((min (t - 0) (dst.length - (E - h)) : Nat) : Int))],
          0 ≤ c.2 ∧ (c.1 : Int) + c.2 ≤ E
            ∧ ∀ i : Nat, c.1 ≤ i → (i : Int) < c.1 + c.2 → occupied ⟨false, D, E, h, t⟩ i := by
        intro c hmem
        simp only [List.mem_cons, List.mem_singleton, List.not_mem_nil, or_false] at hmem
        rcases hmem with rfl | rfl
        · refine ⟨by omega, by simp only []; omega, fun i h1 h2 => hocc1 i h1 ?_⟩
          simp only [] at h2
          omega
        · refine ⟨by omega, by simp only []; omega, fun i h1 h2 => hocc2 i ?_⟩
          simp only [] at h2
          omega
      by_cases ht0 : 0 = t
      · obtain ⟨r, hr⟩ := hsec true
        rw [if_pos ht0, hr]
        exact ⟨_, _, rfl, hlog⟩
      · obtain ⟨r, hr⟩ := hsec false
        rw [if_neg ht0, hr]
        exact ⟨_, _, rfl, hlog⟩
  · have hlt : h < t := by omega
    have hev : circular_buffer_extract_range_log ⟨false, D, E, h, t⟩ dst
        = extract_range_second_log ⟨false, D, E, h, t⟩ dst 0 := by
      unfold circular_buffer_extract_range_log
      simp only [hd', circular_buffer_is_empty, Bool.false_eq_true, or_self, if_false, ge_iff_le,
        hth]
    rw [hev, extract_range_second_log_eq false D E h t dst 0 (by omega) (by omega)
      (Nat.zero_le _) (by omega)]
    refine ⟨_, _, rfl, ?_⟩
    intro c hmem
    simp only [List.mem_singleton] at hmem
    subst hmem
    refine ⟨by omega, by simp only []; omega,
      fun i h1 h2 => occupied_between D E h t i hlt h1 ?_⟩
    simp only [] at h2
    omega

theorem occupied_iff (C : Nat) (b : circular_buffer_t) (hb : WF C b) (i : Nat) :
    occupied b i ↔ ∃ j, j < (contents b).length ∧ i = (b.head + j) % C := by
  rw [contents_length C b hb]
  obtain ⟨-, hE, hh, ht, -⟩ := hb
  unfold occupied
  rw [hE]
  split
  · simp
  · split
    · rename_i hlt
      constructor
      · rintro ⟨h1, h2⟩
        refine ⟨i - b.head, by omega, ?_⟩
        rw [Nat.mod_eq_of_lt (by omega)]
        omega
      · rintro ⟨j, hj, rfl⟩
        rw [Nat.mod_eq_of_lt (by omega)]
        omega
    · rename_i hnlt
      constructor
      · rintro (⟨h1, h2⟩ | h1)
        · refine ⟨i - b.head, by omega, ?_⟩
          rw [Nat.mod_eq_of_lt (by omega)]
          omega
        · refine ⟨C - b.head + i, by omega, ?_⟩
          have e : b.head + (C - b.head + i) = i + C := by omega
          rw [e, Nat.add_mod_right, Nat.mod_eq_of_lt (by omega)]
      · rintro ⟨j, hj, rfl⟩
        by_cases hw : b.head + j < C
        · rw [Nat.mod_eq_of_lt hw]
          left
          omega
        · right
          have e : b.head + j = (b.head + j - C) + C := by omega
          rw [e, Nat.add_mod_right, Nat.mod_eq_of_lt (by omega)]
          omega

theorem contents_getElem (C : Nat) (b : circular_buffer_t) (hb : WF C b) (j : Nat)
    (hj : j < (contents b).length) :
    (contents b)[j]? = b.data_begin[(b.head + j) % C]? := by
  rw [contents_length C b hb] at hj
  obtain ⟨hl, -, hh, ht, -⟩ := hb
  unfold contents
  split at hj
  · omega
  · rename_i hne
    simp only [hne, Bool.false_eq_true, if_false]
    split at hj
    · rename_i hlt
      simp only [hlt, if_true]
      rw [List.getElem?_take_of_lt hj, List.getElem?_drop, Nat.mod_eq_of_lt (by omega)]
    · rename_i hnlt
      simp only [hnlt, if_false]
      by_cases hw : b.head + j < C
      · rw [List.getElem?_append_left (by simp only [List.length_drop]; omega),
          List.getElem?_drop, Nat.mod_eq_of_lt hw]
      · have e : b.head + j = (b.head + j - C) + C := by omega
        rw [List.getElem?_append_right (by simp only [List.length_drop]; omega),
          List.getElem?_take_of_lt (by simp only [List.length_drop]; omega), e,
          Nat.add_mod_right, Nat.mod_eq_of_lt (by omega)]
        congr 1
        simp only [List.length_drop]
        omega

theorem insert_range_second_log_fst (b : circular_buffer_t) (s : List byte) (i : Nat) :
    (insert_range_second_log b s i).map Prod.fst = insert_range_second b s i := by
  unfold insert_range_second_log insert_range_second
  simp only []
  split <;> simp_all

theorem insert_range_log_fst (b : circular_buffer_t) (s : List byte) :
    (circular_buffer_insert_range_log b s).map Prod.fst = circular_buffer_insert_range b s := by
  unfold circular_buffer_insert_range_log circular_buffer_insert_range
  simp only []
  split
  · rfl
  · split
    · split
      · simp_all
      · split
        · rfl
        · rw [← insert_range_second_log_fst]
          split <;> simp_all
    · exact insert_range_second_log_fst _ _ _

theorem extract_range_second_log_fst (b : circular_buffer_t) (out : List byte) (i : Nat) :
    (extract_range_second_log b out i).map Prod.fst = extract_range_second b out i := by
  unfold extract_range_second_log extract_range_second
  simp only []
  split <;> simp_all

theorem extract_range_log_fst (b : circular_buffer_t) (dst : List byte) :
    (circular_buffer_extract_range_log b dst).map Prod.fst
      = circular_buffer_extract_range b dst := by
  unfold circular_buffer_extract_range_log circular_buffer_extract_range
  simp only []
  split
  · rfl
  · split
    · split
      · simp_all
      · split
        · rfl
        · rw [← extract_range_second_log_fst]
          split <;> simp_all
    · exact extract_range_second_log_fst _ _ _

theorem example_empty_insert_log :
    circular_buffer_insert_range_log example_empty [10, 11, 12, 13]
      = some ((⟨false, [12, 13, 3, 10, 11], 5, 3, 2⟩, 4), [(3, 2), (0, 2)]) := by
  decide

theorem example_full_extract_log :
    circular_buffer_extract_range_log example_full [0, 0, 0, 0]
      = some ((⟨false, [6, 7, 8, 4, 5], 5, 2, 3⟩, [4, 5, 6, 7], 4), [(3, 2), (0, 2)]) := by
  decide

/-- C18 (bounds safety of the two-segment copies): in every state reachable from
`construct(C)`, `C ≥ 1`, and for every source and destination, `insert_range` and
`extract_range` return (no checked copy leaves its block), every copy length computed
by `MIN` is non-negative, every copy stays inside `[0, C)`, every storage slot written
by `insert_range` is a free slot of the state before the call and every storage slot read
by `extract_range` is an occupied slot of the state before the call. -/
theorem C18_bounds_safety (C : Nat) (hC : 1 ≤ C) (b : circular_buffer_t)
    (hr : Reachable C b) (s dst : List byte) :
    (∃ r log, circular_buffer_insert_range_log b s = some (r, log)
        ∧ circular_buffer_insert_range b s = some r
        ∧ ∀ c ∈ log, 0 ≤ c.2 ∧ (c.1 : Int) + c.2 ≤ C
            ∧ ∀ i : Nat, c.1 ≤ i → (i : Int) < c.1 + c.2 → free_slot b i)
    ∧ (∃ r log, circular_buffer_extract_range_log b dst = some (r, log)
        ∧ circular_buffer_extract_range b dst = some r
        ∧ ∀ c ∈ log, 0 ≤ c.2 ∧ (c.1 : Int) + c.2 ≤ C
            ∧ ∀ i : Nat, c.1 ≤ i → (i : Int) < c.1 + c.2 → occupied b i) := by
  have hb := Reachable_WF C hC b hr
  have hsz := Reachable_size C b hr
  obtain ⟨r1, log1, h1, p1⟩ := insert_range_log_spec C hsz b hb s
  obtain ⟨r2, log2, h2, p2⟩ := extract_range_log_spec C hsz b hb dst
  refine ⟨⟨r1, log1, h1, ?_, p1⟩, ⟨r2, log2, h2, ?_, p2⟩⟩
  · rw [← insert_range_log_fst, h1]; rfl
  · rw [← extract_range_log_fst, h2]; rfl

/-- Witness for C18: three bytes offered to, and six bytes requested from, a wrapped
buffer of capacity 5 holding four bytes. -/
theorem C18_bounds_safety_witness :
    (1 ≤ 5 ∧ Reachable 5 example_wrapped) ∧
    ((∃ r log, circular_buffer_insert_range_log example_wrapped [8, 9, 10] = some (r, log)
        ∧ circular_buffer_insert_range example_wrapped [8, 9, 10] = some r
        ∧ ∀ c ∈ log, 0 ≤ c.2 ∧ (c.1 : Int) + c.2 ≤ (5 : Nat)
            ∧ ∀ i : Nat, c.1 ≤ i → (i : Int) < c.1 + c.2 → free_slot example_wrapped i)
    ∧ (∃ r log, circular_buffer_extract_range_log example_wrapped [0, 0, 0, 0, 0, 0]
          = some (r, log)
        ∧ circular_buffer_extract_range example_wrapped [0, 0, 0, 0, 0, 0] = some r
        ∧ ∀ c ∈ log, 0 ≤ c.2 ∧ (c.1 : Int) + c.2 ≤ (5 : Nat)
            ∧ ∀ i : Nat, c.1 ≤ i → (i : Int) < c.1 + c.2 → occupied example_wrapped i)) :=
  ⟨⟨by decide, example_wrapped_reachable⟩,
    C18_bounds_safety 5 (by decide) example_wrapped example_wrapped_reachable [8, 9, 10]
      [0, 0, 0, 0, 0, 0]⟩

end CircularBuffer
